import Mathlib

/-!
Thread-safe hash table: a shallow embedding of `htable.c`.

The development follows `src/htable.c` function by function.

Modelling conventions.

* A key (`char *key`) is the list of the `int` values of its chars, in order, the
  terminating NUL left out.  A char of a platform where `char` is signed may be
  negative; nothing below fixes the signedness.
* A value (`void *val`) is an address, a natural number; `NULL` is `0`.
* A chain (the singly linked list hanging off `store[i]`) is the list of its nodes from
  the head on; the `next` field is the list structure.
* `int` values of sizes, indices and counters are integers.  The sum `sz + 1` of
  `htable_init`, the product `2 * ht->size` of `htable_resize` and the products and
  sums of `hashcode` are reduced to the 32-bit `int` range explicitly (`wrap_int`): a
  size that overflows comes out negative, `get_prime` hands it back, and the `assert`
  on the result of `malloc` fails.  The steps `n++` of `get_prime`, `i += 2` of
  `is_prime` and `collision++` stay below `2 ^ 31` (`2 ^ 31 - 1` is a prime, and a
  chain has fewer nodes than that), so they are exact.
* `%` is the C remainder, `Int.tmod` (the sign follows the dividend).
* A function returns `none` where the C code has no defined result: an index outside
  an array, a remainder by zero, a failed `assert`, a loop that has not ended within
  the fuel it was given.
* `BIG_PRIME` is declared in `htable.h`, which is not part of the sources; it is a
  parameter of every definition that depends on it.
* The development is layered.  `htable_insert`, `htable_lookup` and `htable_resize`
  are the data path of the functions: what the code does to the table when each call
  to the readers-writer lock and to a bucket mutex returns.  A result `none` of the
  data path is a fault of the program whatever the locks do.  A result `some` of the
  data path is the result of the program only if the lock calls return:
  `locked_insert` and `locked_lookup` add the global array `mutexes` and have no
  result where `&mutexes[slot]` is outside it, and `htable_insert_traced` and
  `htable_lookup_traced` add the lock calls as a list of events.
* The readers-writer lock itself (`rwlock.c`) is not part of the sources; `rwl_step`
  models it from the specification.  With that lock the write lock that
  `htable_resize` asks for while its caller holds the read lock is never granted
  (`write_lock_blocked_by_own_read_lock`), so a resizing insert returns only with a
  lock that lets the writer pass.
-/

namespace Htable

/-- The collision threshold, `MAX_COLLISION`, defined as 10. -/
def MAX_COLLISION : Int := 10

/-- The null pointer. -/
def NULL : Nat := 0

/-- Reduction of an integer to the range of a 32-bit two's complement `int`. -/
def wrap_int (x : Int) : Int := (x + 2 ^ 31) % 2 ^ 32 - 2 ^ 31

/-- The function `madd(a, b)`: `((a+b)>BIG_PRIME?(a+b-BIG_PRIME):(a+b))`. -/
def madd (BIG_PRIME a b : Int) : Int :=
  if wrap_int (a + b) > BIG_PRIME then wrap_int (wrap_int (a + b) - BIG_PRIME)
  else wrap_int (a + b)

/-- The function `mmul(a, b)`: `((a*b) % BIG_PRIME)`. -/
def mmul (BIG_PRIME a b : Int) : Int :=
  Int.tmod (wrap_int (a * b)) BIG_PRIME

/-- The loop of `hashcode`, from the current value `p` over the chars still to read. -/
def hashcode_loop (BIG_PRIME : Int) : Int → List Int → Int
  | p, [] => p
  | p, c :: s => hashcode_loop BIG_PRIME (madd BIG_PRIME (mmul BIG_PRIME p 256) c) s

/-- The function `hashcode(s)`: the loop started at `p = 0`. -/
def hashcode (BIG_PRIME : Int) (s : List Int) : Int :=
  hashcode_loop BIG_PRIME 0 s

/-- The `for (int i = 3; i < n; i+=2)` loop of `is_prime`, with fuel. -/
def is_prime_loop : Nat → Int → Int → Option Int
  | 0, _, _ => none
  | fuel + 1, n, i =>
    if i < n then
      if Int.tmod n i = 0 then some 0 else is_prime_loop fuel n (i + 2)
    else some 1

/-- The function `is_prime(n)`.  The loop runs fewer than `n` times, so `n` units of
fuel are given. -/
def is_prime (n : Int) : Option Int :=
  if n ≤ 3 then some 1
  else if Int.tmod n 2 = 0 then some 0
  else is_prime_loop n.toNat n 3

/-- The `while (1)` loop of `get_prime`, with fuel. -/
def get_prime_loop : Nat → Int → Option Int
  | 0, _ => none
  | fuel + 1, n =>
    match is_prime n with
    | none => none
    | some r => if r ≠ 0 then some n else get_prime_loop fuel (n + 1)

/-- The function `get_prime(min)`.  The fuel `min + 2` is never used up
(`get_prime_total`). -/
def get_prime (min : Int) : Option Int :=
  get_prime_loop (min.toNat + 2) min

/-- The `struct node` of `htable.h` as `htable.c` uses it: the fields `hashcode`, `key`,
`val`; `next` is the tail of the chain. -/
structure node where
  hashcode : Int
  key : List Int
  val : Nat
deriving DecidableEq

/-- The `struct htable` of `htable.h` as `htable.c` uses it. -/
structure htable where
  size : Int
  store : List (List node)
  allow_resize : Int
deriving DecidableEq

/-- The call `malloc(sizeof(node *)*n)` followed by `assert` and `bzero`: `n` empty
chains.  For a negative `n` the byte count is converted to a huge unsigned number,
`malloc` returns `NULL` and the `assert` fails.  For `n >= 0` the allocation is taken to
succeed. -/
def alloc_store (n : Int) : Option (List (List node)) :=
  if n < 0 then none else some (List.replicate n.toNat [])

/-- The function `htable_init(ht, sz, allow_resize)`; the sum `sz + 1` is an `int`.  The
array `mutexes` that the function also allocates is added by `locked_init`. -/
def htable_init (sz allow_resize : Int) : Option htable :=
  match get_prime (wrap_int (sz + 1)) with
  | none => none
  | some size =>
    match alloc_store size with
    | none => none
    | some store => some { size := size, store := store, allow_resize := allow_resize }

/-- The function `htable_size(ht)`. -/
def htable_size (ht : htable) : Int := ht.size

/-- The read `ht->store[slot]` for an `int` index: defined for `0 <= slot < length`. -/
def store_get (store : List (List node)) (slot : Int) : Option (List node) :=
  if slot < 0 then none else store[slot.toNat]?

/-- The index `hcode % ht->size`: no result for a zero divisor. -/
def slot_of (hcode size : Int) : Option Int :=
  if size = 0 then none else some (Int.tmod hcode size)

/-- The inner `while (curr)` loop of `htable_resize` over one old chain: each node is
linked in front of the chain of `new_store[n->hashcode % new_size]`. -/
def rehome_chain (new_size : Int) : List node → List (List node) → Option (List (List node))
  | [], new_store => some new_store
  | n :: curr, new_store =>
    match slot_of n.hashcode new_size with
    | none => none
    | some slot =>
      match store_get new_store slot with
      | none => none
      | some head => rehome_chain new_size curr (new_store.set slot.toNat (n :: head))

/-- The outer `for (int i = 0; i < ht->size; i++)` loop of `htable_resize`, over the
indices still to visit. -/
def rehome_buckets (new_size : Int) (store : List (List node)) :
    List Nat → List (List node) → Option (List (List node))
  | [], new_store => some new_store
  | i :: rest, new_store =>
    match store[i]? with
    | none => none
    | some chain =>
      match rehome_chain new_size chain new_store with
      | none => none
      | some new_store1 => rehome_buckets new_size store rest new_store1

/-- The function `htable_resize(ht)`, data path: the table after the call when
`rwl_wlock` returns; the product `2*ht->size` is an `int`.  The function does not
assign `mutexes`. -/
def htable_resize (ht : htable) : Option htable :=
  match get_prime (wrap_int (2 * ht.size)) with
  | none => none
  | some new_size =>
    match alloc_store new_size with
    | none => none
    | some new_store =>
      match rehome_buckets new_size ht.store (List.range ht.size.toNat) new_store with
      | none => none
      | some new_store1 => some { ht with size := new_size, store := new_store1 }

/-- The `while (curr)` loop of `htable_insert`: `none` when a node with the same
hashcode and key is met (the function then returns 1), otherwise the final value of
`collision`. -/
def insert_walk (hcode : Int) (key : List Int) : List node → Int → Option Int
  | [], collision => some collision
  | curr :: next, collision =>
    if curr.hashcode = hcode ∧ curr.key = key then none
    else insert_walk hcode key next (collision + 1)

/-- The function `htable_insert(ht, key, val)`, data path: the table after the call and
the returned `int`, when the calls `rwl_rlock`, `pthread_mutex_lock(&mutexes[slot])`
and, inside `htable_resize`, `rwl_wlock` return.  `locked_insert` adds the array
`mutexes` and `htable_insert_traced` the lock calls. -/
def htable_insert (BIG_PRIME : Int) (ht : htable) (key : List Int) (val : Nat) :
    Option (htable × Int) :=
  let hcode := hashcode BIG_PRIME key
  match slot_of hcode ht.size with
  | none => none
  | some slot =>
    match store_get ht.store slot with
    | none => none
    | some chain =>
      match insert_walk hcode key chain 0 with
      | none => some (ht, 1)
      | some collision =>
        let n : node := { hashcode := hcode, key := key, val := val }
        let ht1 : htable := { ht with store := ht.store.set slot.toNat (chain ++ [n]) }
        if ht.allow_resize ≠ 0 ∧ collision ≥ MAX_COLLISION then
          match htable_resize ht1 with
          | none => none
          | some ht2 => some (ht2, 0)
        else some (ht1, 0)

/-- The `while (curr)` loop of `htable_lookup`: the `val` of the first node with the
same hashcode and key, `NULL` when the chain has none. -/
def lookup_walk (hcode : Int) (key : List Int) : List node → Nat
  | [] => NULL
  | curr :: next =>
    if curr.hashcode = hcode ∧ curr.key = key then curr.val
    else lookup_walk hcode key next

/-- The function `htable_lookup(ht, key)`, data path: the returned pointer when the
calls `rwl_rlock` and `pthread_mutex_lock(&mutexes[slot])` return.  `locked_lookup`
adds the array `mutexes` and `htable_lookup_traced` the lock calls. -/
def htable_lookup (BIG_PRIME : Int) (ht : htable) (key : List Int) : Option Nat :=
  let hcode := hashcode BIG_PRIME key
  match slot_of hcode ht.size with
  | none => none
  | some slot =>
    match store_get ht.store slot with
    | none => none
    | some chain => some (lookup_walk hcode key chain)

/-! ## Notions used to state the properties -/

/-- A value of `BIG_PRIME` for the closed examples (a prime with `256 * BIG_PRIME` inside
the `int` range); the header that defines the constant is not among the sources. -/
def BIG_PRIME_sample : Int := 1560007

/-- All the nodes of a table, bucket after bucket. -/
def entries (ht : htable) : List node := ht.store.flatten

/-- The node that `htable_insert` allocates for a key and a value. -/
def node_of (BIG_PRIME : Int) (kv : List Int × Nat) : node :=
  { hashcode := hashcode BIG_PRIME kv.1, key := kv.1, val := kv.2 }

/-- The chain of the bucket that `htable_insert` and `htable_lookup` address for a key,
when the index is inside the array. -/
def target_chain (BIG_PRIME : Int) (ht : htable) (key : List Int) : Option (List node) :=
  match slot_of (hashcode BIG_PRIME key) ht.size with
  | none => none
  | some slot => store_get ht.store slot

/-- The table of `htable_insert` right after the new node is linked at the end of the
target chain and before the resize test. -/
def append_node (BIG_PRIME : Int) (ht : htable) (key : List Int) (val : Nat)
    (chain : List node) : htable :=
  let slot := Int.tmod (hashcode BIG_PRIME key) ht.size
  { ht with store := ht.store.set slot.toNat (chain ++ [node_of BIG_PRIME (key, val)]) }

/-- Table states reached from `htable_init` by calls of `htable_insert` run one at a
time, together with the (key, value) pairs whose insert returned 0, latest first. -/
inductive Reachable (BIG_PRIME : Int) : htable → List (List Int × Nat) → Prop
  | init (sz allow_resize : Int) (ht : htable) :
      htable_init sz allow_resize = some ht → Reachable BIG_PRIME ht []
  | insert (ht ht1 : htable) (done : List (List Int × Nat)) (key : List Int) (val : Nat)
      (r : Int) :
      Reachable BIG_PRIME ht done → htable_insert BIG_PRIME ht key val = some (ht1, r) →
      Reachable BIG_PRIME ht1 (if r = 0 then (key, val) :: done else done)

/-- The bucket array has `size` slots, and `size` is a non-negative `int`. -/
def well_sized (ht : htable) : Prop :=
  (0 ≤ ht.size ∧ ht.size < 2 ^ 31) ∧ ht.store.length = ht.size.toNat

/-- Every node sits in the bucket its hashcode selects, and its hashcode is the hashcode
of its key. -/
def placed (BIG_PRIME : Int) (ht : htable) : Prop :=
  ∀ (i : Nat) (chain : List node), ht.store[i]? = some chain →
    ∀ e ∈ chain, Int.tmod e.hashcode ht.size = i ∧ e.hashcode = hashcode BIG_PRIME e.key

/-- Every node of a bucket array sits in the bucket its hashcode selects. -/
def slots_ok (size : Int) (store : List (List node)) : Prop :=
  ∀ (i : Nat) (chain : List node), store[i]? = some chain →
    ∀ e ∈ chain, Int.tmod e.hashcode size = i

/-- No two nodes of the table have the same key. -/
def unique_keys (ht : htable) : Prop :=
  ((entries ht).map node.key).Nodup

/-- The invariant of the reachable tables, against the list of the pairs inserted: the
array has `size` slots, every node is in the bucket of its hashcode, the nodes are the
nodes allocated for the pairs, and the keys of the pairs are distinct. -/
def table_inv (BIG_PRIME : Int) (ht : htable) (done : List (List Int × Nat)) : Prop :=
  well_sized ht ∧ slots_ok ht.size ht.store ∧
    (entries ht).Perm (done.map (node_of BIG_PRIME)) ∧ (done.map Prod.fst).Nodup

/-- The integer `p` is the least prime that is at least `lo`. -/
def least_prime_from (lo p : Int) : Prop :=
  Nat.Prime p.toNat ∧ lo ≤ p ∧ ∀ q : Int, Nat.Prime q.toNat → lo ≤ q → p ≤ q

/-- The integer `p` is the least prime strictly greater than `lo`. -/
def least_prime_above (lo p : Int) : Prop :=
  Nat.Prime p.toNat ∧ lo < p ∧ ∀ q : Int, Nat.Prime q.toNat → lo < q → p ≤ q

/-- The rehoming pass of `htable_resize` as a pass over the list of the old chains. -/
def rehome_list (new_size : Int) :
    List (List node) → List (List node) → Option (List (List node))
  | [], new_store => some new_store
  | chain :: rest, new_store =>
    match rehome_chain new_size chain new_store with
    | none => none
    | some new_store1 => rehome_list new_size rest new_store1

/-- Runs `htable_insert` on the pairs of a list, in order, from a table on; `done`
collects the pairs whose insert returned 0, latest first. -/
def htable_inserts (BIG_PRIME : Int) :
    htable → List (List Int × Nat) → List (List Int × Nat) →
      Option (htable × List (List Int × Nat))
  | ht, done, [] => some (ht, done)
  | ht, done, kv :: rest =>
    match htable_insert BIG_PRIME ht kv.1 kv.2 with
    | none => none
    | some res =>
      htable_inserts BIG_PRIME res.1 (if res.2 = 0 then kv :: done else done) rest

/-- The node of the one-char key `c` with value `v`, for a `BIG_PRIME` above `c`. -/
def char_node (c : Int) (v : Nat) : node := { hashcode := c, key := [c], val := v }

/-- The table that `htable_init(ht, 5, 1)` builds: 7 empty buckets. -/
def table7 : htable :=
  { size := 7, store := [[], [], [], [], [], [], []], allow_resize := 1 }

/-- Ten pairs whose one-char keys 7, 14, ..., 70 all select bucket 0 of 7 buckets. -/
def pairs10 : List (List Int × Nat) :=
  [([7], 1), ([14], 2), ([21], 3), ([28], 4), ([35], 5), ([42], 6), ([49], 7), ([56], 8),
    ([63], 9), ([70], 10)]

/-- The table `table7` after the ten inserts of `pairs10`: bucket 0 holds the ten nodes
in the order of insertion. -/
def table10 : htable :=
  { size := 7,
    store := [[char_node 7 1, char_node 14 2, char_node 21 3, char_node 28 4, char_node 35 5,
      char_node 42 6, char_node 49 7, char_node 56 8, char_node 63 9, char_node 70 10],
      [], [], [], [], [], []],
    allow_resize := 1 }

/-- The table `table10` after the insert of the key 77 with the value 11, which
resizes it: 17 buckets, the node of hashcode `h` in bucket `h % 17`. -/
def table17 : htable :=
  { size := 17,
    store := [[], [char_node 35 5], [char_node 70 10], [], [char_node 21 3],
      [char_node 56 8], [], [char_node 7 1], [char_node 42 6], [char_node 77 11], [],
      [char_node 28 4], [char_node 63 9], [], [char_node 14 2], [char_node 49 7], []],
    allow_resize := 1 }

/-- Ten pairs whose one-char keys -7, 7, 14, ..., 63 all select bucket 0 of 7 buckets;
the char -7 is the byte 0xF9 read as a signed char. -/
def pairs_neg : List (List Int × Nat) :=
  [([-7], 1), ([7], 2), ([14], 3), ([21], 4), ([28], 5), ([35], 6), ([42], 7), ([49], 8),
    ([56], 9), ([63], 10)]

/-- The chain of bucket 0 after the ten inserts of `pairs_neg`. -/
def chain_neg : List node :=
  [char_node (-7) 1, char_node 7 2, char_node 14 3, char_node 21 4, char_node 28 5,
    char_node 35 6, char_node 42 7, char_node 49 8, char_node 56 9, char_node 63 10]

/-- The table `table7` after the ten inserts of `pairs_neg`. -/
def table_neg10 : htable :=
  { size := 7, store := [chain_neg, [], [], [], [], [], []], allow_resize := 1 }

/-- The table on which the insert of the key 70 into `table_neg10` calls
`htable_resize`: the node of the key 70 is appended to the chain of bucket 0. -/
def table_neg11 : htable :=
  { size := 7, store := [chain_neg ++ [char_node 70 11], [], [], [], [], [], []],
    allow_resize := 1 }

/-! ## The lock calls -/

/-- The calls on the readers-writer lock `elock` and on the bucket mutexes that a run
performs, in order; a mutex is named by the index used in `&mutexes[slot]`. -/
inductive lock_event where
  | rlock : lock_event
  | runlock : lock_event
  | wlock : lock_event
  | wunlock : lock_event
  | mutex_lock (slot : Int) : lock_event
  | mutex_unlock (slot : Int) : lock_event
deriving DecidableEq

/-- The function `htable_resize` with its lock calls: `rwl_wlock` before the rehoming
pass and `rwl_wunlock` after the new array is installed. -/
def htable_resize_traced (ht : htable) : Option (htable × List lock_event) :=
  match htable_resize ht with
  | none => none
  | some ht1 => some (ht1, [lock_event.wlock, lock_event.wunlock])

/-- The function `htable_insert` with its lock calls: the table after the call, the
returned `int` and the lock events of the run. -/
def htable_insert_traced (BIG_PRIME : Int) (ht : htable) (key : List Int) (val : Nat) :
    Option ((htable × Int) × List lock_event) :=
  let hcode := hashcode BIG_PRIME key
  match slot_of hcode ht.size with
  | none => none
  | some slot =>
    match store_get ht.store slot with
    | none => none
    | some chain =>
      match insert_walk hcode key chain 0 with
      | none =>
        some ((ht, 1), [lock_event.rlock, lock_event.mutex_lock slot,
          lock_event.mutex_unlock slot, lock_event.runlock])
      | some collision =>
        let n : node := { hashcode := hcode, key := key, val := val }
        let ht1 : htable := { ht with store := ht.store.set slot.toNat (chain ++ [n]) }
        if ht.allow_resize ≠ 0 ∧ collision ≥ MAX_COLLISION then
          match htable_resize_traced ht1 with
          | none => none
          | some res =>
            some ((res.1, 0), [lock_event.rlock, lock_event.mutex_lock slot] ++ res.2 ++
              [lock_event.mutex_unlock slot, lock_event.runlock])
        else
          some ((ht1, 0), [lock_event.rlock, lock_event.mutex_lock slot,
            lock_event.mutex_unlock slot, lock_event.runlock])

/-- The function `htable_lookup` with its lock calls: the returned pointer and the lock
events of the run. -/
def htable_lookup_traced (BIG_PRIME : Int) (ht : htable) (key : List Int) :
    Option (Nat × List lock_event) :=
  let hcode := hashcode BIG_PRIME key
  match slot_of hcode ht.size with
  | none => none
  | some slot =>
    match store_get ht.store slot with
    | none => none
    | some chain =>
      some (lookup_walk hcode key chain, [lock_event.rlock, lock_event.mutex_lock slot,
        lock_event.mutex_unlock slot, lock_event.runlock])

/-- The locks a thread holds: how many times it holds `elock` in read mode, how many
times in write mode, and the indices of the bucket mutexes it holds. -/
structure held_locks where
  readers : Nat
  writers : Nat
  mutexes : List Int
deriving DecidableEq

/-- The locks held after one more lock event. -/
def held_step (h : held_locks) : lock_event → held_locks
  | lock_event.rlock => { h with readers := h.readers + 1 }
  | lock_event.runlock => { h with readers := h.readers - 1 }
  | lock_event.wlock => { h with writers := h.writers + 1 }
  | lock_event.wunlock => { h with writers := h.writers - 1 }
  | lock_event.mutex_lock slot => { h with mutexes := slot :: h.mutexes }
  | lock_event.mutex_unlock slot => { h with mutexes := h.mutexes.erase slot }

/-- The locks held after a run of lock events, from the locks held before it. -/
def held_after (h : held_locks) (events : List lock_event) : held_locks :=
  events.foldl held_step h

/-- No write-mode acquisition of a run happens while the thread holds `elock` in read
mode or holds a bucket mutex. -/
def no_upgrade : held_locks → List lock_event → Bool
  | _, [] => true
  | h, e :: rest =>
    (if e = lock_event.wlock then h.readers == 0 && h.mutexes.isEmpty else true) &&
      no_upgrade (held_step h e) rest

/-- The table together with the global array `mutexes`, of which only the length
matters: the number of mutexes that `htable_init` allocates and initialises. -/
structure locked_htable where
  ht : htable
  mutexes : Nat
deriving DecidableEq

/-- The function `htable_init` with the array `mutexes`: `ht->size` mutexes are
allocated and initialised. -/
def locked_init (sz allow_resize : Int) : Option locked_htable :=
  match htable_init sz allow_resize with
  | none => none
  | some ht => some { ht := ht, mutexes := ht.size.toNat }

/-- The address `&mutexes[slot]` lies in the array. -/
def mutex_in_range (mutexes : Nat) (slot : Int) : Bool :=
  decide (0 ≤ slot) && decide (slot.toNat < mutexes)

/-- The function `htable_insert` with the array `mutexes`: the call has no defined
result when `&mutexes[slot]` is outside the array; neither `htable_insert` nor
`htable_resize` assigns `mutexes`. -/
def locked_insert (BIG_PRIME : Int) (lt : locked_htable) (key : List Int) (val : Nat) :
    Option (locked_htable × Int) :=
  match slot_of (hashcode BIG_PRIME key) lt.ht.size with
  | none => none
  | some slot =>
    if mutex_in_range lt.mutexes slot then
      match htable_insert BIG_PRIME lt.ht key val with
      | none => none
      | some res => some ({ ht := res.1, mutexes := lt.mutexes }, res.2)
    else none

/-- The function `htable_lookup` with the array `mutexes`. -/
def locked_lookup (BIG_PRIME : Int) (lt : locked_htable) (key : List Int) : Option Nat :=
  match slot_of (hashcode BIG_PRIME key) lt.ht.size with
  | none => none
  | some slot =>
    if mutex_in_range lt.mutexes slot then htable_lookup BIG_PRIME lt.ht key else none

/-- Runs `locked_insert` on the pairs of a list, in order. -/
def locked_inserts (BIG_PRIME : Int) : locked_htable → List (List Int × Nat) →
    Option locked_htable
  | lt, [] => some lt
  | lt, kv :: rest =>
    match locked_insert BIG_PRIME lt kv.1 kv.2 with
    | none => none
    | some res => locked_inserts BIG_PRIME res.1 rest

/-- Table states with the mutex array, reached from `htable_init` by calls of
`htable_insert` run one at a time. -/
inductive LockedReachable (BIG_PRIME : Int) : locked_htable → Prop
  | init (sz allow_resize : Int) (lt : locked_htable) :
      locked_init sz allow_resize = some lt → LockedReachable BIG_PRIME lt
  | insert (lt lt1 : locked_htable) (key : List Int) (val : Nat) (r : Int) :
      LockedReachable BIG_PRIME lt → locked_insert BIG_PRIME lt key val = some (lt1, r) →
      LockedReachable BIG_PRIME lt1

/-! ## The hash as the specification words it -/

/-- The value of a char as a byte, between 0 and 255. -/
def byte_of (c : Int) : Int := c % 256

/-- The base-256 number `b_1*256^(n-1) + ... + b_n` of the bytes of a key. -/
def base256 (s : List Int) : Int :=
  s.foldl (fun n c => n * 256 + byte_of c) 0

/-- The hash as the specification words it: the fold of
`p = (p*256 + byte) mod BIG_PRIME` from `p = 0` over the bytes of the key. -/
def hash_fold (BIG_PRIME : Int) (s : List Int) : Int :=
  s.foldl (fun p c => (p * 256 + byte_of c) % BIG_PRIME) 0

/-- The integer is a value of a 32-bit `int`. -/
def in_int_range (x : Int) : Bool :=
  decide (-2 ^ 31 ≤ x) && decide (x < 2 ^ 31)

/-- No product, sum or difference that the loop of `hashcode` computes from the value
`p` on over the chars still to read leaves the range of `int`: the product `p*256` of
`mmul`, the sum `a+b` of `madd` and, when it is computed, the difference
`a+b-BIG_PRIME`. -/
def hashcode_exact (BIG_PRIME : Int) : Int → List Int → Bool
  | _, [] => true
  | p, c :: s =>
    in_int_range (p * 256) &&
      in_int_range (mmul BIG_PRIME p 256 + c) &&
      (if mmul BIG_PRIME p 256 + c > BIG_PRIME
        then in_int_range (mmul BIG_PRIME p 256 + c - BIG_PRIME) else true) &&
      hashcode_exact BIG_PRIME (madd BIG_PRIME (mmul BIG_PRIME p 256) c) s

/-- The table that `htable_init(ht, 0, 1)` builds: one empty bucket. -/
def table1 : htable :=
  { size := 1, store := [[]], allow_resize := 1 }

/-- No chain of the table is longer than `MAX_COLLISION`. -/
def chains_short (ht : htable) : Prop :=
  ∀ chain ∈ ht.store, (chain.length : Int) ≤ MAX_COLLISION

/-- Eleven pairs with the distinct one-char keys 1, 2, ..., 11. -/
def pairs11 : List (List Int × Nat) :=
  [([1], 1), ([2], 2), ([3], 3), ([4], 4), ([5], 5), ([6], 6), ([7], 7), ([8], 8), ([9], 9),
    ([10], 10), ([11], 11)]

/-- The table `table1` after the eleven inserts of `pairs11`, the last of which resizes
it: 2 buckets, the nodes of the even keys in bucket 0 and those of the odd keys in
bucket 1, each chain in the reverse of the order of insertion. -/
def table2 : htable :=
  { size := 2,
    store := [[char_node 10 10, char_node 8 8, char_node 6 6, char_node 4 4, char_node 2 2],
      [char_node 11 11, char_node 9 9, char_node 7 7, char_node 5 5, char_node 3 3,
        char_node 1 1]],
    allow_resize := 1 }

/-- Ten pairs with the distinct one-char keys -1, 1, 2, ..., 9; the char -1 is the byte
0xFF read as a signed char. -/
def pairs_ff : List (List Int × Nat) :=
  [([-1], 1), ([1], 2), ([2], 3), ([3], 4), ([4], 5), ([5], 6), ([6], 7), ([7], 8), ([8], 9),
    ([9], 10)]

/-- The table `table1` after the ten inserts of `pairs_ff`: its one bucket holds the
ten nodes. -/
def table1_ff : htable :=
  { size := 1,
    store := [[char_node (-1) 1, char_node 1 2, char_node 2 3, char_node 3 4, char_node 4 5,
      char_node 5 6, char_node 6 7, char_node 7 8, char_node 8 9, char_node 9 10]],
    allow_resize := 1 }

/-! ## The readers-writer lock, from the specification -/

/-- Modelled from the spec: the state of the readers-writer lock, whose implementation
`rwlock.c` is not among the sources.  The fields are those of `struct rwl` in
`rwlock.h`: the count of active readers, the active writer (0 or 1), the count of
threads blocked wanting to read and the count of threads blocked wanting to write. -/
structure rwl where
  readers : Nat
  writer : Nat
  askread : Nat
  askwrite : Nat
deriving DecidableEq

/-- Modelled from the spec: the steps of the lock of `rwlock.c`, which is not among the
sources: a thread calls `rwl_rlock`; a blocked reader wakes up and proceeds; a reader
calls `rwl_runlock`; a thread calls `rwl_wlock`; a blocked writer wakes up and
proceeds; the writer calls `rwl_wunlock`; a blocked reader or writer gives up at its
deadline. -/
inductive rwl_event where
  | rlock_call : rwl_event
  | rlock_wake : rwl_event
  | runlock : rwl_event
  | wlock_call : rwl_event
  | wlock_wake : rwl_event
  | wunlock : rwl_event
  | rlock_timeout : rwl_event
  | wlock_timeout : rwl_event
deriving DecidableEq

/-- Modelled from the spec: `rwl_init` of `rwlock.c`, which is not among the sources:
no reader, no writer, nobody waiting. -/
def rwl_init : rwl := { readers := 0, writer := 0, askread := 0, askwrite := 0 }

/-- Modelled from the spec: one step of the lock of `rwlock.c`, which is not among the
sources, `none` when the step cannot be taken.  `read_lock` blocks while a writer is
active or writers are waiting, and on wake increments the active-reader count;
`read_unlock` decrements it; `write_lock` blocks while any reader is active or a writer
is active, and on wake marks the writer active; `write_unlock` clears it; a timed
acquisition that fails deregisters itself as a waiter. -/
def rwl_step (l : rwl) : rwl_event → Option rwl
  | rwl_event.rlock_call =>
    if l.writer = 0 ∧ l.askwrite = 0 then some { l with readers := l.readers + 1 }
    else some { l with askread := l.askread + 1 }
  | rwl_event.rlock_wake =>
    if 0 < l.askread ∧ l.writer = 0 ∧ l.askwrite = 0 then
      some { l with askread := l.askread - 1, readers := l.readers + 1 }
    else none
  | rwl_event.runlock =>
    if 0 < l.readers then some { l with readers := l.readers - 1 } else none
  | rwl_event.wlock_call =>
    if l.readers = 0 ∧ l.writer = 0 then some { l with writer := 1 }
    else some { l with askwrite := l.askwrite + 1 }
  | rwl_event.wlock_wake =>
    if 0 < l.askwrite ∧ l.readers = 0 ∧ l.writer = 0 then
      some { l with askwrite := l.askwrite - 1, writer := 1 }
    else none
  | rwl_event.wunlock =>
    if l.writer = 1 then some { l with writer := 0 } else none
  | rwl_event.rlock_timeout =>
    if 0 < l.askread then some { l with askread := l.askread - 1 } else none
  | rwl_event.wlock_timeout =>
    if 0 < l.askwrite then some { l with askwrite := l.askwrite - 1 } else none

/-- Modelled from the spec: `rwl_nwaiters` of `rwlock.c`, which is not among the
sources: the total of the blocked readers and the blocked writers. -/
def rwl_nwaiters (l : rwl) : Nat := l.askread + l.askwrite

/-- Modelled from the spec: a run of steps of the lock of `rwlock.c`, which is not among
the sources, before each of which at least one writer is waiting. -/
inductive WaitingRun : rwl → List rwl_event → rwl → Prop
  | done (l : rwl) : WaitingRun l [] l
  | step (l l1 l2 : rwl) (e : rwl_event) (es : List rwl_event) :
      0 < l.askwrite → rwl_step l e = some l1 → WaitingRun l1 es l2 →
      WaitingRun l (e :: es) l2

/-- Modelled from the spec: a call on the lock of `rwlock.c`, which is not among the
sources, by a thread that runs alone: the state of the lock after the call, `none` when
the call does not return.  `rwl_rlock` blocks while a writer is active or waiting and
`rwl_wlock` blocks while a reader or a writer is active; with no other thread to release
the lock, a call that blocks never returns.  The calls on the bucket mutexes leave this
lock as it is. -/
def rwl_call (l : rwl) : lock_event → Option rwl
  | lock_event.rlock =>
    if l.writer = 0 ∧ l.askwrite = 0 then rwl_step l rwl_event.rlock_call else none
  | lock_event.runlock => rwl_step l rwl_event.runlock
  | lock_event.wlock =>
    if l.readers = 0 ∧ l.writer = 0 then rwl_step l rwl_event.wlock_call else none
  | lock_event.wunlock => rwl_step l rwl_event.wunlock
  | lock_event.mutex_lock _ => some l
  | lock_event.mutex_unlock _ => some l

/-- Modelled from the spec: the lock calls of a run, in order, by a thread that runs
alone against the lock of `rwlock.c`, which is not among the sources: `none` when one
of the calls does not return. -/
def rwl_calls : rwl → List lock_event → Option rwl
  | l, [] => some l
  | l, e :: rest =>
    match rwl_call l e with
    | none => none
    | some l1 => rwl_calls l1 rest

/-! ## The primality test and the prime search -/

theorem is_prime_loop_some (fuel : Nat) : ∀ (n i : Int), 0 < i → (n - i).toNat < fuel →
    ∃ r, is_prime_loop fuel n i = some r ∧ (r = 0 ∨ r = 1) ∧
      (r = 0 ↔ ∃ k : Nat, i + 2 * k < n ∧ (i + 2 * k) ∣ n) := by
  induction fuel with
  | zero => intro n i _ hf; omega
  | succ fuel ih =>
    intro n i hi hf
    unfold is_prime_loop
    by_cases hlt : i < n
    · rw [if_pos hlt]
      by_cases hd : Int.tmod n i = 0
      · rw [if_pos hd]
        refine ⟨0, rfl, Or.inl rfl, ⟨fun _ => ⟨0, by simpa using hlt, ?_⟩, fun _ => rfl⟩⟩
        simpa using Int.dvd_of_tmod_eq_zero hd
      · rw [if_neg hd]
        obtain ⟨r, hr, h01, hiff⟩ := ih n (i + 2) (by omega) (by omega)
        refine ⟨r, hr, h01, hiff.trans ⟨?_, ?_⟩⟩
        · rintro ⟨k, hk, hdv⟩
          exact ⟨k + 1, by push_cast; omega, by
            have : i + 2 * ((k + 1 : Nat) : Int) = i + 2 + 2 * (k : Int) := by push_cast; ring
            rw [this]; exact hdv⟩
        · rintro ⟨k, hk, hdv⟩
          cases k with
          | zero =>
            exfalso; apply hd
            exact Int.tmod_eq_zero_of_dvd (by simpa using hdv)
          | succ k =>
            have : i + 2 * ((k + 1 : Nat) : Int) = i + 2 + 2 * (k : Int) := by push_cast; ring
            rw [this] at hk hdv
            exact ⟨k, hk, hdv⟩
    · rw [if_neg hlt]
      refine ⟨1, rfl, Or.inr rfl, ⟨fun h => absurd h (by decide), ?_⟩⟩
      rintro ⟨k, hk, _⟩
      omega

/-- The value of `is_prime`: it is total, returns 0 or 1, and returns 1 exactly on the
integers up to 3 and on the primes. -/
theorem is_prime_spec (n : Int) :
    ∃ r, is_prime n = some r ∧ (r = 0 ∨ r = 1) ∧ (r = 1 ↔ n ≤ 3 ∨ Nat.Prime n.toNat) := by
  unfold is_prime
  by_cases h3 : n ≤ 3
  · rw [if_pos h3]; exact ⟨1, rfl, Or.inr rfl, by simp [h3]⟩
  rw [if_neg h3]
  have hn : (n.toNat : Int) = n := Int.toNat_of_nonneg (by omega)
  by_cases h2 : Int.tmod n 2 = 0
  · rw [if_pos h2]
    refine ⟨0, rfl, Or.inl rfl, ⟨fun h => absurd h (by decide), ?_⟩⟩
    rintro (h | hp)
    · exact absurd h h3
    · exfalso
      have hdvd : (2 : Int) ∣ n := Int.dvd_of_tmod_eq_zero h2
      have hdvd' : 2 ∣ n.toNat := by
        rw [← hn] at hdvd; exact_mod_cast hdvd
      have := (Nat.prime_dvd_prime_iff_eq Nat.prime_two hp).1 hdvd'
      omega
  · rw [if_neg h2]
    obtain ⟨r, hr, h01, hiff⟩ := is_prime_loop_some n.toNat n 3 (by decide) (by omega)
    refine ⟨r, hr, h01, ?_⟩
    have hodd : ¬ (2 : Int) ∣ n := fun h => h2 (Int.tmod_eq_zero_of_dvd h)
    have hodd' : ¬ 2 ∣ n.toNat := by
      intro h; apply hodd; rw [← hn]; exact_mod_cast h
    constructor
    · intro hr1
      right
      have hno : ¬ ∃ k : Nat, (3 : Int) + 2 * k < n ∧ (3 + 2 * (k : Int)) ∣ n := by
        intro hex; have := hiff.2 hex; omega
      by_contra hnp
      have h1 : n.toNat ≠ 1 := by omega
      have hmf := Nat.minFac_prime h1
      have hmd := Nat.minFac_dvd n.toNat
      have hle : n.toNat.minFac ≤ n.toNat := Nat.minFac_le (by omega)
      have hm2 : n.toNat.minFac ≠ 2 := fun h => hodd' (h ▸ hmd)
      have hmn : n.toNat.minFac ≠ n.toNat := fun h => hnp (h ▸ hmf)
      have hge := hmf.two_le
      have hoddm : ¬ 2 ∣ n.toNat.minFac := fun h => hodd' (dvd_trans h hmd)
      apply hno
      refine ⟨(n.toNat.minFac - 3) / 2, ?_, ?_⟩
      · omega
      · have he : (3 : Int) + 2 * (((n.toNat.minFac - 3) / 2 : Nat) : Int) = (n.toNat.minFac : Int) := by
          omega
        rw [he, ← hn]; exact_mod_cast hmd
    · rintro (h | hp)
      · exact absurd h h3
      · rcases h01 with h0 | h1
        · exfalso
          obtain ⟨k, hk, hdv⟩ := hiff.1 h0
          have hdv' : (3 + 2 * k) ∣ n.toNat := by
            rw [← hn] at hdv; exact_mod_cast hdv
          have := (Nat.dvd_prime hp).1 hdv'
          omega
        · exact h1

theorem get_prime_loop_found (fuel : Nat) : ∀ (n p : Int), n ≤ p →
    (∀ m, n ≤ m → m < p → is_prime m = some 0) →
    (∃ r, is_prime p = some r ∧ r ≠ 0) → (p - n).toNat < fuel →
    get_prime_loop fuel n = some p := by
  induction fuel with
  | zero => intro n p _ _ _ hf; omega
  | succ fuel ih =>
    intro n p hnp hlow hp hf
    unfold get_prime_loop
    rcases eq_or_lt_of_le hnp with heq | hlt
    · subst heq
      obtain ⟨r, hr, hr0⟩ := hp
      simp [hr, hr0]
    · rw [hlow n (le_refl n) hlt]
      simp only [ne_eq, not_true_eq_false, if_false]
      exact ih (n + 1) p (by omega) (fun m h1 h2 => hlow m (by omega) h2) hp (by omega)

/-- On an argument up to 3 `get_prime` returns the argument itself. -/
theorem get_prime_small (min : Int) (h : min ≤ 3) : get_prime min = some min := by
  unfold get_prime
  apply get_prime_loop_found _ min min (le_refl _) (fun m h1 h2 => by omega)
  · exact ⟨1, by simp [is_prime, h], by decide⟩
  · simp

/-- From 2 on `get_prime` returns the least prime that is at least its argument. -/
theorem get_prime_spec (min : Int) (h : 2 ≤ min) :
    ∃ p, get_prime min = some p ∧ Nat.Prime p.toNat ∧ min ≤ p ∧
      ∀ q : Int, Nat.Prime q.toNat → min ≤ q → p ≤ q := by
  have hmin : (min.toNat : Int) = min := Int.toNat_of_nonneg (by omega)
  have hex : ∃ q : Nat, min.toNat ≤ q ∧ Nat.Prime q := by
    obtain ⟨q, hq, h1, _⟩ := Nat.exists_prime_lt_and_le_two_mul min.toNat (by omega)
    exact ⟨q, le_of_lt h1, hq⟩
  have hfind := Nat.find_spec hex
  have hmin' : ∀ m : Nat, m < Nat.find hex → ¬ (min.toNat ≤ m ∧ Nat.Prime m) :=
    fun m hm => Nat.find_min hex hm
  have hub : Nat.find hex ≤ 2 * min.toNat := by
    rcases Nat.lt_or_ge 3 min.toNat with h4 | h4
    · obtain ⟨q, hq, h1, h2⟩ := Nat.exists_prime_lt_and_le_two_mul min.toNat (by omega)
      exact le_trans (Nat.find_min' hex ⟨le_of_lt h1, hq⟩) h2
    · have hp : Nat.Prime min.toNat := by
        have : min.toNat = 2 ∨ min.toNat = 3 := by omega
        rcases this with h | h <;> rw [h] <;> norm_num
      exact le_trans (Nat.find_min' hex ⟨le_refl _, hp⟩) (by omega)
  refine ⟨(Nat.find hex : Int), ?_, by simpa using hfind.2, by omega, ?_⟩
  · unfold get_prime
    apply get_prime_loop_found
    · omega
    · intro m h1 h2
      obtain ⟨r, hr, h01, hiff⟩ := is_prime_spec m
      have hnot : ¬ (m ≤ 3 ∨ Nat.Prime m.toNat) := by
        rintro (h3 | hp)
        · have hp : Nat.Prime m.toNat := by
            have : m.toNat = 2 ∨ m.toNat = 3 := by omega
            rcases this with h | h <;> rw [h] <;> norm_num
          exact hmin' m.toNat (by omega) ⟨by omega, hp⟩
        · exact hmin' m.toNat (by omega) ⟨by omega, hp⟩
      rcases h01 with h0 | h1'
      · rw [hr, h0]
      · exact absurd (hiff.1 h1') hnot
    · obtain ⟨r, hr, h01, hiff⟩ := is_prime_spec (Nat.find hex : Int)
      refine ⟨r, hr, ?_⟩
      have : r = 1 := hiff.2 (Or.inr (by simpa using hfind.2))
      omega
    · omega
  · intro q hq hle
    have : Nat.find hex ≤ q.toNat := Nat.find_min' hex ⟨by omega, hq⟩
    omega

/-- The search of `get_prime` ends on every argument. -/
theorem get_prime_total (min : Int) : ∃ p, get_prime min = some p := by
  rcases le_or_lt min 3 with h | h
  · exact ⟨min, get_prime_small min h⟩
  · obtain ⟨p, hp, _⟩ := get_prime_spec min (by omega)
    exact ⟨p, hp⟩

/-- The largest value of a 32-bit `int`, `2 ^ 31 - 1`, is a prime. -/
theorem int_max_prime : Nat.Prime (2 ^ 31 - 1) := by
  have h : (mersenne 31).Prime := lucas_lehmer_sufficiency 31 (by norm_num) (by norm_num)
  simpa [mersenne] using h

/-- The search of `get_prime` from a value of a 32-bit `int` stays inside the range of
the type: it ends at `2 ^ 31 - 1` at the latest. -/
theorem get_prime_lt {min p : Int} (h : min < 2 ^ 31) (hp : get_prime min = some p) :
    min ≤ p ∧ p < 2 ^ 31 := by
  rcases le_or_lt min 3 with h3 | h3
  · rw [get_prime_small min h3] at hp
    simp only [Option.some.injEq] at hp
    omega
  · obtain ⟨q, hq, _, hle, hmin⟩ := get_prime_spec min (by omega)
    rw [hq] at hp
    simp only [Option.some.injEq] at hp
    subst hp
    have hm : Nat.Prime ((2 ^ 31 - 1 : Int)).toNat := by
      have : ((2 ^ 31 - 1 : Int)).toNat = 2 ^ 31 - 1 := by decide
      rw [this]; exact int_max_prime
    have := hmin (2 ^ 31 - 1) hm (by omega)
    omega

/-! ## Reduction to the `int` range -/

theorem wrap_int_eq {x : Int} (h1 : -2 ^ 31 ≤ x) (h2 : x < 2 ^ 31) : wrap_int x = x := by
  unfold wrap_int
  rw [Int.emod_eq_of_lt (by omega) (by omega)]
  ring

theorem wrap_int_range (x : Int) : -2 ^ 31 ≤ wrap_int x ∧ wrap_int x < 2 ^ 31 := by
  unfold wrap_int
  have h1 := Int.emod_nonneg (x + 2 ^ 31) (show (2 ^ 32 : Int) ≠ 0 by norm_num)
  have h2 := Int.emod_lt_of_pos (x + 2 ^ 31) (show (0 : Int) < 2 ^ 32 by norm_num)
  omega

/-- A value from `2 ^ 31` up to `2 ^ 32 - 1`, which a 32-bit `int` cannot hold, is reduced
to a negative one. -/
theorem wrap_int_overflow {x : Int} (h1 : 2 ^ 31 ≤ x) (h2 : x < 2 ^ 32) :
    wrap_int x = x - 2 ^ 32 := by
  unfold wrap_int
  omega

/-! ## Lists of chains -/

theorem flatten_set_perm (l : List (List node)) : ∀ (i : Nat) (c c1 : List node) (n : node),
    l[i]? = some c → c1.Perm (n :: c) → (l.set i c1).flatten.Perm (n :: l.flatten) := by
  induction l with
  | nil => intro i c c1 n h; simp at h
  | cons a l ih =>
    intro i c c1 n h hp
    cases i with
    | zero =>
      simp only [List.getElem?_cons_zero, Option.some.injEq] at h
      subst h
      simp only [List.set_cons_zero, List.flatten_cons]
      exact (hp.append_right _)
    | succ i =>
      simp only [List.getElem?_cons_succ] at h
      simp only [List.set_cons_succ, List.flatten_cons]
      exact ((ih i c c1 n h hp).append_left a).trans List.perm_middle

theorem store_get_some {store : List (List node)} {slot : Int} {chain : List node}
    (h : store_get store slot = some chain) : 0 ≤ slot ∧ store[slot.toNat]? = some chain := by
  unfold store_get at h
  split at h
  · cases h
  · exact ⟨by omega, h⟩

theorem store_get_of_lt {store : List (List node)} {slot : Int} (h0 : 0 ≤ slot)
    (h1 : slot.toNat < store.length) : ∃ chain, store_get store slot = some chain := by
  unfold store_get
  rw [if_neg (by omega)]
  exact ⟨store[slot.toNat], List.getElem?_eq_getElem h1⟩

theorem slot_of_some {hcode size slot : Int} (h : slot_of hcode size = some slot) :
    size ≠ 0 ∧ slot = Int.tmod hcode size := by
  unfold slot_of at h
  split at h
  · cases h
  · exact ⟨by assumption, by simpa using h.symm⟩

theorem slot_of_eq {hcode size : Int} (h : size ≠ 0) :
    slot_of hcode size = some (Int.tmod hcode size) := by
  simp [slot_of, h]

/-! ## The rehoming pass of `htable_resize` -/

theorem rehome_chain_props (new_size : Int) : ∀ (chain : List node) (ns ns1 : List (List node)),
    rehome_chain new_size chain ns = some ns1 →
    ns1.length = ns.length ∧ ns1.flatten.Perm (chain ++ ns.flatten) ∧
    (slots_ok new_size ns → slots_ok new_size ns1) := by
  intro chain
  induction chain with
  | nil =>
    intro ns ns1 h
    simp only [rehome_chain, Option.some.injEq] at h
    subst h
    exact ⟨rfl, by simp, id⟩
  | cons n curr ih =>
    intro ns ns1 h
    unfold rehome_chain at h
    split at h
    · cases h
    · rename_i slot hslot
      split at h
      · cases h
      · rename_i head hhead
        obtain ⟨hs0, hget⟩ := store_get_some hhead
        obtain ⟨hne, hsl⟩ := slot_of_some hslot
        obtain ⟨hlen, hperm, hok⟩ := ih _ _ h
        refine ⟨by simpa using hlen, ?_, ?_⟩
        · refine hperm.trans ?_
          have := flatten_set_perm ns slot.toNat head (n :: head) n hget (List.Perm.refl _)
          exact ((this.append_left curr).trans List.perm_middle)
        · intro hns
          apply hok
          intro j ch hj e he
          rw [List.getElem?_set] at hj
          split at hj
          · rename_i hij
            split at hj
            · simp only [Option.some.injEq] at hj
              subst hj
              rcases List.mem_cons.1 he with rfl | he
              · rw [← hij, ← hsl]; omega
              · rw [← hij] ; exact hns _ _ hget e he
            · cases hj
          · exact hns j ch hj e he

theorem rehome_chain_total (new_size : Int) (hpos : 0 < new_size) :
    ∀ (chain : List node) (ns : List (List node)), ns.length = new_size.toNat →
    (∀ e ∈ chain, 0 ≤ e.hashcode) → ∃ ns1, rehome_chain new_size chain ns = some ns1 := by
  intro chain
  induction chain with
  | nil => intro ns _ _; exact ⟨ns, rfl⟩
  | cons n curr ih =>
    intro ns hlen hnn
    unfold rehome_chain
    rw [slot_of_eq (by omega)]
    have h0 : 0 ≤ Int.tmod n.hashcode new_size := Int.tmod_nonneg _ (hnn n (List.mem_cons_self _ _))
    have h1 : Int.tmod n.hashcode new_size < new_size := Int.tmod_lt_of_pos _ hpos
    have hlt : (Int.tmod n.hashcode new_size).toNat < ns.length := by omega
    obtain ⟨head, hhead⟩ := store_get_of_lt h0 hlt
    simp only [hhead]
    exact ih _ (by simpa using hlen) (fun e he => hnn e (List.mem_cons_of_mem _ he))

theorem rehome_list_props (new_size : Int) : ∀ (store ns ns1 : List (List node)),
    rehome_list new_size store ns = some ns1 →
    ns1.length = ns.length ∧ ns1.flatten.Perm (store.flatten ++ ns.flatten) ∧
    (slots_ok new_size ns → slots_ok new_size ns1) := by
  intro store
  induction store with
  | nil =>
    intro ns ns1 h
    simp only [rehome_list, Option.some.injEq] at h
    subst h
    exact ⟨rfl, by simp, id⟩
  | cons chain rest ih =>
    intro ns ns1 h
    unfold rehome_list at h
    split at h
    · cases h
    · rename_i nsm hm
      obtain ⟨hl1, hp1, hk1⟩ := rehome_chain_props new_size chain ns nsm hm
      obtain ⟨hl2, hp2, hk2⟩ := ih nsm ns1 h
      refine ⟨hl2.trans hl1, ?_, fun hns => hk2 (hk1 hns)⟩
      simp only [List.flatten_cons]
      refine hp2.trans ?_
      refine ((hp1.append_left rest.flatten).trans ?_)
      rw [List.append_assoc]
      exact List.perm_append_comm_assoc _ _ _

theorem rehome_list_total (new_size : Int) (hpos : 0 < new_size) :
    ∀ (store ns : List (List node)), ns.length = new_size.toNat →
    (∀ e ∈ store.flatten, 0 ≤ e.hashcode) → ∃ ns1, rehome_list new_size store ns = some ns1 := by
  intro store
  induction store with
  | nil => intro ns _ _; exact ⟨ns, rfl⟩
  | cons chain rest ih =>
    intro ns hlen hnn
    unfold rehome_list
    obtain ⟨nsm, hm⟩ := rehome_chain_total new_size hpos chain ns hlen
      (fun e he => hnn e (by simp [he]))
    simp only [hm]
    have hl := (rehome_chain_props new_size chain ns nsm hm).1
    exact ih nsm (by omega) (fun e he => hnn e (by
      simp only [List.flatten_cons, List.mem_append]; exact Or.inr he))

theorem rehome_buckets_range (new_size : Int) : ∀ (suf pre ns : List (List node)),
    rehome_buckets new_size (pre ++ suf) (List.range' pre.length suf.length) ns =
      rehome_list new_size suf ns := by
  intro suf
  induction suf with
  | nil => intro pre ns; simp [rehome_buckets, rehome_list]
  | cons chain rest ih =>
    intro pre ns
    simp only [List.length_cons, List.range'_succ]
    unfold rehome_buckets rehome_list
    have hget : (pre ++ chain :: rest)[pre.length]? = some chain := by
      rw [List.getElem?_append_right (le_refl _)]; simp
    simp only [hget]
    cases hc : rehome_chain new_size chain ns with
    | none => rfl
    | some nsm =>
      simp only
      have := ih (pre ++ [chain]) nsm
      simpa using this

theorem rehome_buckets_eq (new_size : Int) (store ns : List (List node)) :
    rehome_buckets new_size store (List.range store.length) ns =
      rehome_list new_size store ns := by
  have := rehome_buckets_range new_size store [] ns
  simpa [List.range_eq_range'] using this

/-! ## `htable_resize` -/

theorem alloc_store_pos {n : Int} (h : 0 ≤ n) : alloc_store n = some (List.replicate n.toNat []) := by
  simp [alloc_store, h]

theorem slots_ok_replicate (size : Int) (n : Nat) : slots_ok size (List.replicate n []) := by
  intro i chain h e he
  rw [List.getElem?_replicate] at h
  split at h
  · simp only [Option.some.injEq] at h; subst h; simp at he
  · cases h

theorem resize_eq (ht : htable) (hw : well_sized ht) (p : Int)
    (hp : get_prime (wrap_int (2 * ht.size)) = some p) (hp0 : 0 ≤ p) :
    htable_resize ht =
      (rehome_list p ht.store (List.replicate p.toNat [])).map
        (fun s => { ht with size := p, store := s }) := by
  unfold htable_resize
  rw [hp]
  simp only [alloc_store_pos hp0]
  rw [← hw.2, rehome_buckets_eq]
  cases rehome_list p ht.store (List.replicate p.toNat []) <;> rfl

/-- The new size of a completed `htable_resize` is the result of `get_prime` on the `int`
product `2*ht->size`, and is not negative; `allow_resize` is kept. -/
theorem resize_new_size {ht ht1 : htable} (h : htable_resize ht = some ht1) :
    get_prime (wrap_int (2 * ht.size)) = some ht1.size ∧ 0 ≤ ht1.size ∧
      ht1.allow_resize = ht.allow_resize := by
  unfold htable_resize at h
  cases hp : get_prime (wrap_int (2 * ht.size)) with
  | none => rw [hp] at h; cases h
  | some p =>
    rw [hp] at h
    simp only at h
    by_cases hp0 : p < 0
    · simp [alloc_store, hp0] at h
    · simp only [alloc_store, if_neg hp0] at h
      split at h
      · cases h
      · simp only [Option.some.injEq] at h
        subst h
        exact ⟨rfl, by show 0 ≤ p; omega, rfl⟩

/-- A product `2*ht->size` that does not fit a 32-bit `int` comes out negative, and the
`assert` on the new bucket array fails. -/
theorem resize_overflow (ht : htable) (h1 : 2 ^ 30 ≤ ht.size) (h2 : ht.size < 2 ^ 31) :
    htable_resize ht = none := by
  have hw : wrap_int (2 * ht.size) = 2 * ht.size - 2 ^ 32 :=
    wrap_int_overflow (by omega) (by omega)
  unfold htable_resize
  rw [get_prime_small _ (by rw [hw]; omega)]
  have hneg : wrap_int (2 * ht.size) < 0 := by rw [hw]; omega
  simp [alloc_store, hneg]

/-- The bucket count that a completed `htable_resize` leaves is the least prime from
twice the old one, and twice the old one fits a 32-bit `int`. -/
theorem resize_size (ht ht1 : htable) (h1 : 1 ≤ ht.size) (h2 : ht.size < 2 ^ 31)
    (h : htable_resize ht = some ht1) :
    least_prime_from (2 * ht.size) ht1.size ∧ ht1.allow_resize = ht.allow_resize ∧
      ht.size < 2 ^ 30 := by
  have h30 : ht.size < 2 ^ 30 := by
    by_contra hge
    rw [resize_overflow ht (by omega) h2] at h
    cases h
  obtain ⟨hg, _, har⟩ := resize_new_size h
  rw [wrap_int_eq (by omega) (by omega)] at hg
  obtain ⟨p, hp, hprime, hle, hmin⟩ := get_prime_spec (2 * ht.size) (by omega)
  rw [hp] at hg
  simp only [Option.some.injEq] at hg
  subst hg
  exact ⟨⟨hprime, hle, hmin⟩, har, h30⟩

theorem resize_props (ht ht1 : htable) (hw : well_sized ht)
    (h : htable_resize ht = some ht1) :
    well_sized ht1 ∧ slots_ok ht1.size ht1.store ∧ (entries ht1).Perm (entries ht) := by
  obtain ⟨hp, hp0, _⟩ := resize_new_size h
  have hlt := (get_prime_lt (wrap_int_range (2 * ht.size)).2 hp).2
  rw [resize_eq ht hw ht1.size hp hp0] at h
  cases hr : rehome_list ht1.size ht.store (List.replicate ht1.size.toNat []) with
  | none => rw [hr] at h; cases h
  | some s =>
    rw [hr] at h
    simp only [Option.map_some', Option.some.injEq] at h
    obtain ⟨hl, hperm, hok⟩ := rehome_list_props ht1.size ht.store _ s hr
    have hs : ht1.store = s := by rw [← h]
    refine ⟨⟨⟨hp0, hlt⟩, by rw [hs]; simpa using hl⟩, ?_, ?_⟩
    · rw [hs]; exact hok (slots_ok_replicate ht1.size _)
    · show ht1.store.flatten.Perm ht.store.flatten
      rw [hs]; simpa using hperm

theorem resize_total (ht : htable) (hw : well_sized ht) (h1 : 1 ≤ ht.size)
    (h30 : ht.size < 2 ^ 30) (hnn : ∀ e ∈ entries ht, 0 ≤ e.hashcode) :
    ∃ ht1, htable_resize ht = some ht1 := by
  obtain ⟨p, hp, hprime, hle, hmin⟩ := get_prime_spec (2 * ht.size) (by omega)
  rw [← wrap_int_eq (show -2 ^ 31 ≤ 2 * ht.size by omega) (by omega)] at hp
  rw [resize_eq ht hw p hp (by omega)]
  obtain ⟨s, hs⟩ := rehome_list_total p (by omega) ht.store (List.replicate p.toNat [])
    (by simp) hnn
  rw [hs]
  exact ⟨_, rfl⟩

/-! ## The chain walks -/

theorem insert_walk_none (hcode : Int) (key : List Int) : ∀ (chain : List node) (c : Int),
    (∃ e ∈ chain, e.hashcode = hcode ∧ e.key = key) → insert_walk hcode key chain c = none := by
  intro chain
  induction chain with
  | nil => intro c h; obtain ⟨e, he, _⟩ := h; simp at he
  | cons a rest ih =>
    intro c h
    unfold insert_walk
    by_cases ha : a.hashcode = hcode ∧ a.key = key
    · rw [if_pos ha]
    · rw [if_neg ha]
      apply ih
      obtain ⟨e, he, hm⟩ := h
      rcases List.mem_cons.1 he with rfl | he
      · exact absurd hm ha
      · exact ⟨e, he, hm⟩

theorem insert_walk_some (hcode : Int) (key : List Int) : ∀ (chain : List node) (c : Int),
    (∀ e ∈ chain, ¬ (e.hashcode = hcode ∧ e.key = key)) →
    insert_walk hcode key chain c = some (c + chain.length) := by
  intro chain
  induction chain with
  | nil => intro c _; simp [insert_walk]
  | cons a rest ih =>
    intro c h
    unfold insert_walk
    rw [if_neg (h a (List.mem_cons_self _ _))]
    rw [ih (c + 1) (fun e he => h e (List.mem_cons_of_mem _ he))]
    simp only [List.length_cons, Nat.cast_add, Nat.cast_one]
    congr 1
    ring

theorem lookup_walk_none (hcode : Int) (key : List Int) : ∀ (chain : List node),
    (∀ e ∈ chain, ¬ (e.hashcode = hcode ∧ e.key = key)) →
    lookup_walk hcode key chain = NULL := by
  intro chain
  induction chain with
  | nil => intro _; rfl
  | cons a rest ih =>
    intro h
    unfold lookup_walk
    rw [if_neg (h a (List.mem_cons_self _ _))]
    exact ih (fun e he => h e (List.mem_cons_of_mem _ he))

theorem lookup_walk_mem (hcode : Int) (key : List Int) (e : node) (hh : e.hashcode = hcode)
    (hk : e.key = key) : ∀ (chain : List node), e ∈ chain →
    (∀ a ∈ chain, a.key = key → a = e) → lookup_walk hcode key chain = e.val := by
  intro chain
  induction chain with
  | nil => intro he; simp at he
  | cons a rest ih =>
    intro he huniq
    unfold lookup_walk
    by_cases ha : a.hashcode = hcode ∧ a.key = key
    · rw [if_pos ha, huniq a (List.mem_cons_self _ _) ha.2]
    · rw [if_neg ha]
      rcases List.mem_cons.1 he with rfl | he
      · exact absurd ⟨hh, hk⟩ ha
      · exact ih he (fun b hb => huniq b (List.mem_cons_of_mem _ hb))

/-! ## Consequences of the invariant -/

theorem mem_entries_iff (ht : htable) (e : node) :
    e ∈ entries ht ↔ ∃ (i : Nat) (chain : List node), ht.store[i]? = some chain ∧ e ∈ chain := by
  unfold entries
  rw [List.mem_flatten]
  constructor
  · rintro ⟨chain, hc, he⟩
    obtain ⟨i, hi⟩ := List.mem_iff_getElem?.1 hc
    exact ⟨i, chain, hi, he⟩
  · rintro ⟨i, chain, hi, he⟩
    exact ⟨chain, List.mem_iff_getElem?.2 ⟨i, hi⟩, he⟩

theorem inv_mem_entries {BIG_PRIME : Int} {ht : htable} {done : List (List Int × Nat)}
    (hinv : table_inv BIG_PRIME ht done) (e : node) :
    e ∈ entries ht ↔ ∃ kv ∈ done, node_of BIG_PRIME kv = e := by
  rw [hinv.2.2.1.mem_iff, List.mem_map]

theorem done_val_unique {done : List (List Int × Nat)} (hnd : (done.map Prod.fst).Nodup)
    {k : List Int} {v w : Nat} (hv : (k, v) ∈ done) (hw : (k, w) ∈ done) : v = w := by
  induction done with
  | nil => simp at hv
  | cons a rest ih =>
    simp only [List.map_cons, List.nodup_cons, List.mem_map, not_exists, not_and] at hnd
    rcases List.mem_cons.1 hv with rfl | hv1
    · rcases List.mem_cons.1 hw with h | hw1
      · exact (Prod.mk.inj h).2.symm
      · exact absurd rfl (hnd.1 (k, w) hw1)
    · rcases List.mem_cons.1 hw with rfl | hw1
      · exact absurd rfl (hnd.1 (k, v) hv1)
      · exact ih hnd.2 hv1 hw1

/-- Under the invariant the table is `placed`. -/
theorem inv_placed {BIG_PRIME : Int} {ht : htable} {done : List (List Int × Nat)}
    (hinv : table_inv BIG_PRIME ht done) : placed BIG_PRIME ht := by
  intro i chain hi e he
  refine ⟨hinv.2.1 i chain hi e he, ?_⟩
  obtain ⟨kv, _, rfl⟩ := (inv_mem_entries hinv e).1 ((mem_entries_iff ht e).2 ⟨i, chain, hi, he⟩)
  rfl

/-- Under the invariant the keys of the table are distinct. -/
theorem inv_unique_keys {BIG_PRIME : Int} {ht : htable} {done : List (List Int × Nat)}
    (hinv : table_inv BIG_PRIME ht done) : unique_keys ht := by
  unfold unique_keys
  have hp : ((entries ht).map node.key).Perm (done.map Prod.fst) := by
    have := hinv.2.2.1.map node.key
    simpa [List.map_map, Function.comp_def, node_of] using this
  exact hp.nodup_iff.2 hinv.2.2.2

/-- Under the invariant the bucket that a key of the table selects exists and holds the
node of the key. -/
theorem inv_target_of_mem {BIG_PRIME : Int} {ht : htable} {done : List (List Int × Nat)}
    (hinv : table_inv BIG_PRIME ht done) {k : List Int} {v : Nat} (hkv : (k, v) ∈ done) :
    ∃ chain, target_chain BIG_PRIME ht k = some chain ∧ node_of BIG_PRIME (k, v) ∈ chain := by
  have hmem : node_of BIG_PRIME (k, v) ∈ entries ht :=
    (inv_mem_entries hinv _).2 ⟨(k, v), hkv, rfl⟩
  obtain ⟨i, chain, hi, he⟩ := (mem_entries_iff ht _).1 hmem
  have hslot : Int.tmod (hashcode BIG_PRIME k) ht.size = i := hinv.2.1 i chain hi _ he
  have hlt : i < ht.store.length := (List.getElem?_eq_some.1 hi).1
  have hsz : ht.size ≠ 0 := by
    intro h0
    have : ht.store.length = 0 := by rw [hinv.1.2, h0]; rfl
    omega
  refine ⟨chain, ?_, he⟩
  unfold target_chain
  rw [slot_of_eq hsz]
  simp only [store_get, hslot]
  simpa using hi

theorem target_chain_some {BIG_PRIME : Int} {ht : htable} {key : List Int} {chain : List node}
    (h : target_chain BIG_PRIME ht key = some chain) :
    ht.size ≠ 0 ∧ 0 ≤ Int.tmod (hashcode BIG_PRIME key) ht.size ∧
      ht.store[(Int.tmod (hashcode BIG_PRIME key) ht.size).toNat]? = some chain := by
  unfold target_chain at h
  split at h
  · cases h
  · rename_i slot hs
    obtain ⟨h0, h1⟩ := slot_of_some hs
    subst h1
    obtain ⟨h2, h3⟩ := store_get_some h
    exact ⟨h0, h2, h3⟩

/-- A key with a non-negative hashcode selects a bucket of a well sized table that has
at least one bucket. -/
theorem target_chain_of_nonneg {BIG_PRIME : Int} {ht : htable} (hw : well_sized ht)
    (hpos : 0 < ht.size) {key : List Int} (hk : 0 ≤ hashcode BIG_PRIME key) :
    ∃ chain, target_chain BIG_PRIME ht key = some chain := by
  unfold target_chain
  rw [slot_of_eq (by omega)]
  have h1 := Int.tmod_lt_of_pos (hashcode BIG_PRIME key) hpos
  have := hw.2
  exact store_get_of_lt (Int.tmod_nonneg _ hk) (by omega)

theorem inv_no_match {BIG_PRIME : Int} {ht : htable} {done : List (List Int × Nat)}
    (hinv : table_inv BIG_PRIME ht done) {k : List Int} (hk : k ∉ done.map Prod.fst)
    (e : node) (he : e ∈ entries ht) : e.key ≠ k := by
  obtain ⟨kv, hkv, rfl⟩ := (inv_mem_entries hinv e).1 he
  intro h
  exact hk (List.mem_map.2 ⟨kv, hkv, h⟩)

/-! ## `htable_init` and `htable_insert` -/

theorem target_chain_parts {BIG_PRIME : Int} {ht : htable} {key : List Int} {chain : List node}
    (h : target_chain BIG_PRIME ht key = some chain) :
    slot_of (hashcode BIG_PRIME key) ht.size
        = some (Int.tmod (hashcode BIG_PRIME key) ht.size) ∧
      store_get ht.store (Int.tmod (hashcode BIG_PRIME key) ht.size) = some chain := by
  obtain ⟨h0, _, _⟩ := target_chain_some h
  refine ⟨slot_of_eq h0, ?_⟩
  unfold target_chain at h
  rw [slot_of_eq h0] at h
  exact h

/-- Outside the bucket array `htable_insert` has no defined result. -/
theorem insert_undefined {BIG_PRIME : Int} {ht : htable} {key : List Int}
    (h : target_chain BIG_PRIME ht key = none) (val : Nat) :
    htable_insert BIG_PRIME ht key val = none := by
  unfold target_chain at h
  cases hs : slot_of (hashcode BIG_PRIME key) ht.size with
  | none => simp only [htable_insert, hs]
  | some slot =>
    rw [hs] at h
    simp only at h
    simp only [htable_insert, hs, h]

/-- Outside the bucket array `htable_lookup` has no defined result. -/
theorem lookup_undefined {BIG_PRIME : Int} {ht : htable} {key : List Int}
    (h : target_chain BIG_PRIME ht key = none) :
    htable_lookup BIG_PRIME ht key = none := by
  unfold target_chain at h
  cases hs : slot_of (hashcode BIG_PRIME key) ht.size with
  | none => simp only [htable_lookup, hs]
  | some slot =>
    rw [hs] at h
    simp only at h
    simp only [htable_lookup, hs, h]

theorem lookup_eq {BIG_PRIME : Int} {ht : htable} {key : List Int} {chain : List node}
    (h : target_chain BIG_PRIME ht key = some chain) :
    htable_lookup BIG_PRIME ht key = some (lookup_walk (hashcode BIG_PRIME key) key chain) := by
  obtain ⟨h1, h2⟩ := target_chain_parts h
  unfold htable_lookup
  simp only [h1, h2]

/-- The insert of a key that the target chain holds returns 1 and leaves the table as
it is. -/
theorem insert_eq_dup {BIG_PRIME : Int} {ht : htable} {key : List Int} {chain : List node}
    (h : target_chain BIG_PRIME ht key = some chain)
    (hd : ∃ e ∈ chain, e.hashcode = hashcode BIG_PRIME key ∧ e.key = key) (val : Nat) :
    htable_insert BIG_PRIME ht key val = some (ht, 1) := by
  obtain ⟨h1, h2⟩ := target_chain_parts h
  unfold htable_insert
  simp only [h1, h2, insert_walk_none _ _ chain 0 hd]

/-- The insert of a key that the target chain does not hold: the node is appended, and
`htable_resize` is called exactly when resizing is allowed and the walk has counted at
least `MAX_COLLISION` nodes. -/
theorem insert_eq_fresh {BIG_PRIME : Int} {ht : htable} {key : List Int} {chain : List node}
    (h : target_chain BIG_PRIME ht key = some chain)
    (hd : ∀ e ∈ chain, ¬ (e.hashcode = hashcode BIG_PRIME key ∧ e.key = key)) (val : Nat) :
    htable_insert BIG_PRIME ht key val =
      if ht.allow_resize ≠ 0 ∧ MAX_COLLISION ≤ (chain.length : Int) then
        (htable_resize (append_node BIG_PRIME ht key val chain)).map (fun t => (t, 0))
      else some (append_node BIG_PRIME ht key val chain, 0) := by
  obtain ⟨h1, h2⟩ := target_chain_parts h
  unfold htable_insert
  simp only [h1, h2, insert_walk_some _ _ chain 0 hd, zero_add, ge_iff_le]
  by_cases hc : ht.allow_resize ≠ 0 ∧ MAX_COLLISION ≤ (chain.length : Int)
  · rw [if_pos hc, if_pos hc]
    show (match htable_resize (append_node BIG_PRIME ht key val chain) with
      | none => none
      | some ht2 => some (ht2, (0 : Int))) = _
    cases htable_resize (append_node BIG_PRIME ht key val chain) <;> rfl
  · rw [if_neg hc, if_neg hc]
    rfl

theorem init_eq {sz ar : Int} {ht : htable} (h : htable_init sz ar = some ht) :
    get_prime (wrap_int (sz + 1)) = some ht.size ∧ 0 ≤ ht.size ∧
      ht.store = List.replicate ht.size.toNat [] ∧ ht.allow_resize = ar := by
  unfold htable_init at h
  split at h
  · cases h
  · rename_i size hsz
    unfold alloc_store at h
    by_cases hneg : size < 0
    · simp [hneg] at h
    · simp only [hneg, if_false, Option.some.injEq] at h
      subst h
      exact ⟨hsz, by show 0 ≤ size; omega, rfl, rfl⟩

theorem init_inv (BIG_PRIME : Int) {sz ar : Int} {ht : htable} (h : htable_init sz ar = some ht) :
    table_inv BIG_PRIME ht [] := by
  obtain ⟨hg, h0, hs, _⟩ := init_eq h
  have hlt := (get_prime_lt (wrap_int_range (sz + 1)).2 hg).2
  refine ⟨⟨⟨h0, hlt⟩, by rw [hs]; simp⟩, ?_, ?_, by simp⟩
  · rw [hs]; exact slots_ok_replicate _ _
  · unfold entries; rw [hs]; simp

theorem append_inv {BIG_PRIME : Int} {ht : htable} {done : List (List Int × Nat)}
    (hinv : table_inv BIG_PRIME ht done) {key : List Int} (hk : key ∉ done.map Prod.fst)
    {chain : List node} (h : target_chain BIG_PRIME ht key = some chain) (val : Nat) :
    table_inv BIG_PRIME (append_node BIG_PRIME ht key val chain) ((key, val) :: done) := by
  obtain ⟨hne, h0, hget⟩ := target_chain_some h
  obtain ⟨hw, hok, hperm, hnd⟩ := hinv
  refine ⟨⟨hw.1, ?_⟩, ?_, ?_, ?_⟩
  · show (ht.store.set _ _).length = ht.size.toNat
    rw [List.length_set]; exact hw.2
  · intro j ch hj e he
    change (ht.store.set _ _)[j]? = some ch at hj
    change Int.tmod e.hashcode ht.size = j
    rw [List.getElem?_set] at hj
    split at hj
    · rename_i hij
      split at hj
      · simp only [Option.some.injEq] at hj
        subst hj
        rcases List.mem_append.1 he with he | he
        · rw [← hij]; exact hok _ _ hget e he
        · simp only [List.mem_singleton] at he
          subst he
          rw [← hij]
          show Int.tmod (hashcode BIG_PRIME key) ht.size = _
          omega
      · cases hj
    · exact hok j ch hj e he
  · show (ht.store.set _ _).flatten.Perm _
    simp only [List.map_cons]
    refine (flatten_set_perm ht.store _ chain _ (node_of BIG_PRIME (key, val)) hget ?_).trans ?_
    · exact List.perm_append_singleton _ _
    · exact List.Perm.cons _ hperm
  · simp only [List.map_cons, List.nodup_cons]
    exact ⟨hk, hnd⟩

theorem resize_inv {BIG_PRIME : Int} {ht ht1 : htable} {done : List (List Int × Nat)}
    (hinv : table_inv BIG_PRIME ht done)
    (h : htable_resize ht = some ht1) : table_inv BIG_PRIME ht1 done := by
  obtain ⟨hw, hok, hperm⟩ := resize_props ht ht1 hinv.1 h
  exact ⟨hw, hok, hperm.trans hinv.2.2.1, hinv.2.2.2⟩

theorem inv_size_pos_of_target {BIG_PRIME : Int} {ht : htable} (hw : well_sized ht)
    {key : List Int} {chain : List node} (h : target_chain BIG_PRIME ht key = some chain) :
    1 ≤ ht.size := by
  obtain ⟨hne, _, _⟩ := target_chain_some h
  have := hw.1
  omega

/-- The key of the table selects the chain that holds its node (duplicate case), or the
chain holds no node with that hashcode and key (fresh case). -/
theorem inv_chain_cases {BIG_PRIME : Int} {ht : htable} {done : List (List Int × Nat)}
    (hinv : table_inv BIG_PRIME ht done) {key : List Int} {chain : List node}
    (h : target_chain BIG_PRIME ht key = some chain) :
    (key ∈ done.map Prod.fst →
      ∃ e ∈ chain, e.hashcode = hashcode BIG_PRIME key ∧ e.key = key) ∧
    (key ∉ done.map Prod.fst →
      ∀ e ∈ chain, ¬ (e.hashcode = hashcode BIG_PRIME key ∧ e.key = key)) := by
  constructor
  · intro hk
    obtain ⟨kv, hkv, hfst⟩ := List.mem_map.1 hk
    obtain ⟨k, v⟩ := kv
    simp only at hfst
    subst hfst
    obtain ⟨chain1, hc1, he⟩ := inv_target_of_mem hinv hkv
    rw [h] at hc1
    cases hc1
    exact ⟨_, he, rfl, rfl⟩
  · intro hk e he hm
    obtain ⟨_, _, hget⟩ := target_chain_some h
    exact inv_no_match hinv hk e ((mem_entries_iff ht e).2 ⟨_, chain, hget, he⟩) hm.2

/-- The invariant is kept by `htable_insert`; the call returns 0 exactly for a key that
the table does not hold, and 1 otherwise. -/
theorem insert_inv {BIG_PRIME : Int} {ht ht1 : htable} {done : List (List Int × Nat)}
    (hinv : table_inv BIG_PRIME ht done) {key : List Int} {val : Nat} {r : Int}
    (h : htable_insert BIG_PRIME ht key val = some (ht1, r)) :
    table_inv BIG_PRIME ht1 (if r = 0 then (key, val) :: done else done) ∧
      ((key ∈ done.map Prod.fst ∧ r = 1 ∧ ht1 = ht) ∨ (key ∉ done.map Prod.fst ∧ r = 0)) := by
  cases hc : target_chain BIG_PRIME ht key with
  | none => rw [insert_undefined hc] at h; cases h
  | some chain =>
    obtain ⟨hdup, hfresh⟩ := inv_chain_cases hinv hc
    by_cases hk : key ∈ done.map Prod.fst
    · rw [insert_eq_dup hc (hdup hk)] at h
      simp only [Option.some.injEq, Prod.mk.injEq] at h
      obtain ⟨rfl, rfl⟩ := h
      exact ⟨by simpa using hinv, Or.inl ⟨hk, rfl, rfl⟩⟩
    · rw [insert_eq_fresh hc (hfresh hk)] at h
      have hinv1 := append_inv hinv hk hc val
      split at h
      · cases hr : htable_resize (append_node BIG_PRIME ht key val chain) with
        | none => rw [hr] at h; cases h
        | some ht2 =>
          rw [hr] at h
          simp only [Option.map_some', Option.some.injEq, Prod.mk.injEq] at h
          obtain ⟨rfl, rfl⟩ := h
          exact ⟨by simpa using resize_inv hinv1 hr, Or.inr ⟨hk, rfl⟩⟩
      · simp only [Option.some.injEq, Prod.mk.injEq] at h
        obtain ⟨rfl, rfl⟩ := h
        exact ⟨by simpa using hinv1, Or.inr ⟨hk, rfl⟩⟩

/-- Every reachable table satisfies the invariant. -/
theorem reachable_inv {BIG_PRIME : Int} {ht : htable} {done : List (List Int × Nat)}
    (h : Reachable BIG_PRIME ht done) : table_inv BIG_PRIME ht done := by
  induction h with
  | init sz ar ht hi => exact init_inv BIG_PRIME hi
  | insert ht ht1 done key val r _ hins ih => exact (insert_inv ih hins).1

/-! ## Lookup and insert on a table that satisfies the invariant -/

/-- Under the invariant the lookup of an inserted key returns the value of its pair. -/
theorem lookup_of_mem {BIG_PRIME : Int} {ht : htable} {done : List (List Int × Nat)}
    (hinv : table_inv BIG_PRIME ht done) {k : List Int} {v : Nat} (hkv : (k, v) ∈ done) :
    htable_lookup BIG_PRIME ht k = some v := by
  obtain ⟨chain, hc, he⟩ := inv_target_of_mem hinv hkv
  rw [lookup_eq hc]
  congr 1
  obtain ⟨_, _, hget⟩ := target_chain_some hc
  refine lookup_walk_mem _ _ (node_of BIG_PRIME (k, v)) rfl rfl chain he ?_
  intro a ha hak
  obtain ⟨kv, hkv1, rfl⟩ :=
    (inv_mem_entries hinv a).1 ((mem_entries_iff ht a).2 ⟨_, chain, hget, ha⟩)
  obtain ⟨k1, v1⟩ := kv
  have hk1 : k1 = k := hak
  subst hk1
  rw [done_val_unique hinv.2.2.2 hkv1 hkv]

/-- Under the invariant the lookup of a key that was not inserted returns `NULL`, when
the key selects a bucket of the array. -/
theorem lookup_of_not_mem {BIG_PRIME : Int} {ht : htable} {done : List (List Int × Nat)}
    (hinv : table_inv BIG_PRIME ht done) {k : List Int} (hk : k ∉ done.map Prod.fst)
    {chain : List node} (hc : target_chain BIG_PRIME ht k = some chain) :
    htable_lookup BIG_PRIME ht k = some NULL := by
  rw [lookup_eq hc, lookup_walk_none _ _ chain ((inv_chain_cases hinv hc).2 hk)]

theorem inv_hash_nonneg {BIG_PRIME : Int} {ht : htable} {done : List (List Int × Nat)}
    (hinv : table_inv BIG_PRIME ht done) (hnn : ∀ kv ∈ done, 0 ≤ hashcode BIG_PRIME kv.1) :
    ∀ e ∈ entries ht, 0 ≤ e.hashcode := by
  intro e he
  obtain ⟨kv, hkv, rfl⟩ := (inv_mem_entries hinv e).1 he
  exact hnn kv hkv

/-- Under the invariant, on the data path, on a table with at least one bucket and fewer
than `2 ^ 30` whose keys have non-negative hashcodes, the insert of a new key with a
non-negative hashcode returns 0 and yields a table that satisfies the invariant for the
extended list of pairs. -/
theorem insert_fresh_total {BIG_PRIME : Int} {ht : htable} {done : List (List Int × Nat)}
    (hinv : table_inv BIG_PRIME ht done) (hpos : 0 < ht.size) (h30 : ht.size < 2 ^ 30)
    (hnn : ∀ kv ∈ done, 0 ≤ hashcode BIG_PRIME kv.1) {k : List Int}
    (hk0 : 0 ≤ hashcode BIG_PRIME k) (hk : k ∉ done.map Prod.fst) (v : Nat) :
    ∃ ht1, htable_insert BIG_PRIME ht k v = some (ht1, 0) ∧
      table_inv BIG_PRIME ht1 ((k, v) :: done) ∧ ht.size ≤ ht1.size := by
  obtain ⟨chain, hc⟩ := target_chain_of_nonneg hinv.1 hpos hk0
  have hinv1 := append_inv hinv hk hc v
  rw [insert_eq_fresh hc ((inv_chain_cases hinv hc).2 hk)]
  split
  · have hnn1 : ∀ kv ∈ (k, v) :: done, 0 ≤ hashcode BIG_PRIME kv.1 := by
      intro kv hkv
      rcases List.mem_cons.1 hkv with rfl | h
      · exact hk0
      · exact hnn kv h
    have h1 : 1 ≤ (append_node BIG_PRIME ht k v chain).size := by
      show 1 ≤ ht.size; omega
    have h30a : (append_node BIG_PRIME ht k v chain).size < 2 ^ 30 := h30
    have h31a : (append_node BIG_PRIME ht k v chain).size < 2 ^ 31 := by
      show ht.size < 2 ^ 31; omega
    obtain ⟨ht2, hr⟩ := resize_total _ hinv1.1 h1 h30a (inv_hash_nonneg hinv1 hnn1)
    refine ⟨ht2, by rw [hr]; rfl, resize_inv hinv1 hr, ?_⟩
    have := (resize_size _ ht2 h1 h31a hr).1.2.1
    change 2 * ht.size ≤ ht2.size at this
    omega
  · exact ⟨_, rfl, hinv1, le_refl _⟩

/-- Round trip on the data path, for keys that select a bucket: on a reachable table
with at least one bucket and fewer than `2 ^ 30` whose keys have non-negative hashcodes,
the insert of a new key with a non-negative hashcode returns 0 and the lookup that
follows returns the value, whether or not the insert resizes. -/
theorem insert_lookup_roundtrip (BIG_PRIME : Int) (ht : htable) (done : List (List Int × Nat))
    (hr : Reachable BIG_PRIME ht done) (hpos : 0 < ht.size) (h30 : ht.size < 2 ^ 30)
    (hnn : ∀ kv ∈ done, 0 ≤ hashcode BIG_PRIME kv.1) (k : List Int)
    (hk0 : 0 ≤ hashcode BIG_PRIME k) (hk : k ∉ done.map Prod.fst) (v : Nat) :
    ∃ ht1, htable_insert BIG_PRIME ht k v = some (ht1, 0) ∧
      htable_lookup BIG_PRIME ht1 k = some v := by
  obtain ⟨ht1, hins, hinv1, _⟩ := insert_fresh_total (reachable_inv hr) hpos h30 hnn hk0 hk v
  exact ⟨ht1, hins, lookup_of_mem hinv1 (List.mem_cons_self _ _)⟩

theorem hashcode_neg_char (BIG_PRIME : Nat) (c : Int) (h1 : c < 0) (h2 : -128 ≤ c) :
    hashcode (BIG_PRIME : Int) [c] = c := by
  have hw : wrap_int (0 + c) = c := by
    unfold wrap_int
    have : (0 + c + 2 ^ 31) % 2 ^ 32 = c + 2 ^ 31 := by
      rw [zero_add]
      exact Int.emod_eq_of_lt (by omega) (by omega)
    rw [this]; ring
  simp only [hashcode, hashcode_loop, mmul, madd]
  have h0 : Int.tmod (wrap_int (0 * 256)) (BIG_PRIME : Int) = 0 := by
    have : wrap_int (0 * 256) = 0 := by decide
    rw [this]; exact Int.zero_tmod _
  rw [h0, hw]
  rw [if_neg (by omega)]

/-- For every non-negative `BIG_PRIME` the key of the single char -1 selects no bucket
of the 7-bucket table, and `htable_insert` and `htable_lookup` have no defined result
on it. -/
theorem negative_char_undefined_any (BIG_PRIME : Nat) (v : Nat) :
    hashcode (BIG_PRIME : Int) [-1] = -1 ∧
      htable_insert (BIG_PRIME : Int) table7 [-1] v = none ∧
      htable_lookup (BIG_PRIME : Int) table7 [-1] = none := by
  have hh : hashcode (BIG_PRIME : Int) [-1] = -1 :=
    hashcode_neg_char BIG_PRIME (-1) (by decide) (by decide)
  have ht : target_chain (BIG_PRIME : Int) table7 [-1] = none := by
    unfold target_chain
    rw [hh]
    decide
  exact ⟨hh, insert_undefined ht v, lookup_undefined ht⟩

/-! ## Reachable tables -/

theorem reachable_inserts {BIG_PRIME : Int} : ∀ (ops : List (List Int × Nat)) (ht : htable)
    (done : List (List Int × Nat)) (ht1 : htable) (done1 : List (List Int × Nat)),
    Reachable BIG_PRIME ht done → htable_inserts BIG_PRIME ht done ops = some (ht1, done1) →
    Reachable BIG_PRIME ht1 done1 := by
  intro ops
  induction ops with
  | nil =>
    intro ht done ht1 done1 hr h
    simp only [htable_inserts, Option.some.injEq, Prod.mk.injEq] at h
    obtain ⟨rfl, rfl⟩ := h
    exact hr
  | cons kv rest ih =>
    intro ht done ht1 done1 hr h
    unfold htable_inserts at h
    split at h
    · cases h
    · rename_i res hres
      obtain ⟨ht2, r⟩ := res
      exact ih ht2 _ ht1 done1 (Reachable.insert ht ht2 done kv.1 kv.2 r hr hres) h

theorem reachable_table7 (BIG_PRIME : Int) : Reachable BIG_PRIME table7 [] :=
  Reachable.init 5 1 table7 (by decide)

set_option maxRecDepth 100000 in
theorem reachable_table10 : Reachable BIG_PRIME_sample table10 pairs10.reverse :=
  reachable_inserts pairs10 table7 [] table10 pairs10.reverse
    (reachable_table7 BIG_PRIME_sample) (by decide)

/-- A reachable table that holds a pair has at least one bucket. -/
theorem inv_size_pos_of_mem {BIG_PRIME : Int} {ht : htable} {done : List (List Int × Nat)}
    (hinv : table_inv BIG_PRIME ht done) {kv : List Int × Nat} (hkv : kv ∈ done) :
    0 < ht.size := by
  obtain ⟨k, v⟩ := kv
  obtain ⟨chain, hc, _⟩ := inv_target_of_mem hinv hkv
  have := inv_size_pos_of_target hinv.1 hc
  omega

/-- The size hint -1 gives a table of 0 buckets (`is_prime(0)` returns 1 and `malloc(0)`
is taken to succeed); on it the index `hcode % 0` of `htable_insert` and of
`htable_lookup` has no defined result.  The hypothesis `0 < size` of the theorems below
excludes this table. -/
theorem init_zero_buckets :
    htable_init (-1) 1 = some { size := 0, store := [], allow_resize := 1 } ∧
      htable_insert BIG_PRIME_sample { size := 0, store := [], allow_resize := 1 } [97] 1
        = none ∧
      htable_lookup BIG_PRIME_sample { size := 0, store := [], allow_resize := 1 } [97]
        = none := by
  decide

/-! ## Round trip (C1) -/

/-- C1, evaluation at the failing input: on the table of `htable_init(ht, 5, 1)` the key
of the single char -1 (the byte 0xFF read as a signed char) is in no entry, its hashcode
is -1, the index `-1 % 7` is -1, and `htable_insert` has no defined result: it does not
return 0. -/
theorem insert_negative_char_undefined :
    htable_init 5 1 = some table7 ∧ entries table7 = [] ∧
      hashcode BIG_PRIME_sample [-1] = -1 ∧
      slot_of (hashcode BIG_PRIME_sample [-1]) table7.size = some (-1) ∧
      htable_insert BIG_PRIME_sample table7 [-1] 42 = none := by
  decide

/-- The round trip of `insert_lookup_roundtrip` at a concrete input: the eleventh key of
bucket 0, whose insert resizes the table. -/
theorem insert_lookup_roundtrip_witness :
    ∃ ht1, htable_insert BIG_PRIME_sample table10 [77] 11 = some (ht1, 0) ∧
      htable_lookup BIG_PRIME_sample ht1 [77] = some 11 :=
  insert_lookup_roundtrip BIG_PRIME_sample table10 pairs10.reverse reachable_table10
    (by decide) (by decide) (by decide) [77] (by decide) (by decide) 11

/-! ## Duplicate rejection (C2) -/

/-- Duplicate rejection on the data path: on every reachable table and for every entry
`e` of it, the data path of `htable_insert` of the key of `e` with any value returns 1
and leaves the table as it is (bucket count, chains and flag), and the data path of
`htable_lookup` of that key returns the value of `e`, which is the value of the pair
whose insert returned 0. -/
theorem duplicate_rejected_data_path (BIG_PRIME : Int) (ht : htable)
    (done : List (List Int × Nat)) (hr : Reachable BIG_PRIME ht done) (e : node)
    (he : e ∈ entries ht) (v2 : Nat) :
    htable_insert BIG_PRIME ht e.key v2 = some (ht, 1) ∧
      htable_lookup BIG_PRIME ht e.key = some e.val ∧ (e.key, e.val) ∈ done := by
  have hinv := reachable_inv hr
  obtain ⟨kv, hkv, rfl⟩ := (inv_mem_entries hinv e).1 he
  obtain ⟨k, v⟩ := kv
  obtain ⟨chain, hc, hmem⟩ := inv_target_of_mem hinv hkv
  exact ⟨insert_eq_dup hc ⟨_, hmem, rfl, rfl⟩ v2, lookup_of_mem hinv hkv, hkv⟩

/-- A call of `htable_insert` that returns with the mutex array has locked a mutex of
the array, has left the array as it is, and has acted on the table as the data path
does. -/
theorem locked_insert_some {BIG_PRIME : Int} {lt lt1 : locked_htable} {key : List Int}
    {val : Nat} {r : Int} (h : locked_insert BIG_PRIME lt key val = some (lt1, r)) :
    htable_insert BIG_PRIME lt.ht key val = some (lt1.ht, r) ∧ lt1.mutexes = lt.mutexes ∧
      ∃ slot, slot_of (hashcode BIG_PRIME key) lt.ht.size = some slot ∧
        mutex_in_range lt.mutexes slot = true := by
  unfold locked_insert at h
  split at h
  · cases h
  · rename_i slot hslot
    split at h
    · rename_i hm
      split at h
      · cases h
      · rename_i res hres
        simp only [Option.some.injEq, Prod.mk.injEq] at h
        obtain ⟨h1, h2⟩ := h
        subst h1 h2
        exact ⟨hres, rfl, slot, hslot, hm⟩
    · cases h

/-- The table of a state reached with the mutex array is a reachable table. -/
theorem locked_reachable_data {BIG_PRIME : Int} {lt : locked_htable}
    (h : LockedReachable BIG_PRIME lt) : ∃ done, Reachable BIG_PRIME lt.ht done := by
  induction h with
  | init sz ar lt hi =>
    unfold locked_init at hi
    cases hh : htable_init sz ar with
    | none => rw [hh] at hi; cases hi
    | some ht =>
      rw [hh] at hi
      simp only [Option.some.injEq] at hi
      subst hi
      exact ⟨[], Reachable.init sz ar ht hh⟩
  | insert lt lt1 key val r _ hins ih =>
    obtain ⟨done, hd⟩ := ih
    exact ⟨_, Reachable.insert lt.ht lt1.ht done key val r hd (locked_insert_some hins).1⟩

/-- A run of calls of `htable_insert` that all return leads from a state reached with
the mutex array to a state reached with the mutex array. -/
theorem locked_reachable_inserts {BIG_PRIME : Int} : ∀ (ops : List (List Int × Nat))
    (lt lt1 : locked_htable), LockedReachable BIG_PRIME lt →
    locked_inserts BIG_PRIME lt ops = some lt1 → LockedReachable BIG_PRIME lt1 := by
  intro ops
  induction ops with
  | nil =>
    intro lt lt1 hr h
    simp only [locked_inserts, Option.some.injEq] at h
    subst h
    exact hr
  | cons kv rest ih =>
    intro lt lt1 hr h
    unfold locked_inserts at h
    cases hins : locked_insert BIG_PRIME lt kv.1 kv.2 with
    | none => rw [hins] at h; cases h
    | some res =>
      rw [hins] at h
      exact ih res.1 lt1 (LockedReachable.insert lt res.1 kv.1 kv.2 res.2 hr hins) h

/-- Duplicate rejection with the mutex array: in every state reached from `htable_init`
by calls of `htable_insert`, for every entry `e` whose key selects a slot with
`&mutexes[slot]` inside the array `mutexes`, `htable_insert` of the key of `e` with any
value returns 1 and leaves the table and the array as they are, and `htable_lookup` of
that key returns the value of `e`. -/
theorem locked_duplicate_rejected (BIG_PRIME : Int) (lt : locked_htable)
    (hr : LockedReachable BIG_PRIME lt) (e : node) (he : e ∈ entries lt.ht) (slot : Int)
    (hs : slot_of (hashcode BIG_PRIME e.key) lt.ht.size = some slot)
    (hm : mutex_in_range lt.mutexes slot = true) (v2 : Nat) :
    locked_insert BIG_PRIME lt e.key v2 = some (lt, 1) ∧
      locked_lookup BIG_PRIME lt e.key = some e.val := by
  obtain ⟨done, hd⟩ := locked_reachable_data hr
  have hinv := reachable_inv hd
  obtain ⟨kv, hkv, rfl⟩ := (inv_mem_entries hinv e).1 he
  obtain ⟨k, v⟩ := kv
  obtain ⟨chain, hc, hmem⟩ := inv_target_of_mem hinv hkv
  have hins : htable_insert BIG_PRIME lt.ht k v2 = some (lt.ht, 1) :=
    insert_eq_dup hc ⟨_, hmem, rfl, rfl⟩ v2
  have hlk : htable_lookup BIG_PRIME lt.ht k = some v := lookup_of_mem hinv hkv
  have hs1 : slot_of (hashcode BIG_PRIME k) lt.ht.size = some slot := hs
  constructor
  · show locked_insert BIG_PRIME lt k v2 = some (lt, 1)
    unfold locked_insert
    rw [hs1]
    simp only [hm, if_true, hins]
  · show locked_lookup BIG_PRIME lt k = some v
    unfold locked_lookup
    rw [hs1]
    simp only [hm, if_true, hlk]

set_option maxRecDepth 100000 in
/-- The duplicate rejection with the mutex array at a concrete input: the key 21 of the
table of 7 buckets and 7 mutexes after the ten inserts of `pairs10`, stored with the
value 3, is inserted again with the value 99. -/
theorem locked_duplicate_rejected_witness :
    locked_insert BIG_PRIME_sample { ht := table10, mutexes := 7 } [21] 99
        = some ({ ht := table10, mutexes := 7 }, 1) ∧
      locked_lookup BIG_PRIME_sample { ht := table10, mutexes := 7 } [21] = some 3 :=
  locked_duplicate_rejected BIG_PRIME_sample { ht := table10, mutexes := 7 }
    (locked_reachable_inserts pairs10 { ht := table7, mutexes := 7 } _
      (LockedReachable.init 5 1 _ (by decide)) (by decide))
    (char_node 21 3) (by decide) 0 (by decide) (by decide) 99

/-- Duplicate rejection before the first resize: in every state reached from
`htable_init` by calls of `htable_insert` in which the array `mutexes` has at least as
many mutexes as the table has buckets, `htable_insert` of the key of any entry with any
value returns 1 and leaves the table and the array as they are, and `htable_lookup` of
that key returns the value of the entry. -/
theorem locked_duplicate_rejected_unresized (BIG_PRIME : Int) (lt : locked_htable)
    (hr : LockedReachable BIG_PRIME lt) (hsz : lt.ht.size.toNat ≤ lt.mutexes) (e : node)
    (he : e ∈ entries lt.ht) (v2 : Nat) :
    locked_insert BIG_PRIME lt e.key v2 = some (lt, 1) ∧
      locked_lookup BIG_PRIME lt e.key = some e.val := by
  obtain ⟨done, hd⟩ := locked_reachable_data hr
  have hinv := reachable_inv hd
  obtain ⟨kv, hkv, hkve⟩ := (inv_mem_entries hinv e).1 he
  obtain ⟨k, v⟩ := kv
  obtain ⟨chain, hc, _⟩ := inv_target_of_mem hinv hkv
  obtain ⟨hne, h0, hget⟩ := target_chain_some hc
  have hlt := (List.getElem?_eq_some.1 hget).1
  rw [hinv.1.2] at hlt
  have hk : e.key = k := by rw [← hkve]; rfl
  refine locked_duplicate_rejected BIG_PRIME lt hr e he
    (Int.tmod (hashcode BIG_PRIME e.key) lt.ht.size) (slot_of_eq hne) ?_ v2
  rw [hk]
  simp only [mutex_in_range, Bool.and_eq_true, decide_eq_true_eq]
  exact ⟨h0, by omega⟩

set_option maxRecDepth 100000 in
/-- The duplicate rejection before the first resize at a concrete input: the key 21 of
the table of 7 buckets and 7 mutexes after the ten inserts of `pairs10`. -/
theorem locked_duplicate_rejected_unresized_witness :
    locked_insert BIG_PRIME_sample { ht := table10, mutexes := 7 } [21] 99
        = some ({ ht := table10, mutexes := 7 }, 1) ∧
      locked_lookup BIG_PRIME_sample { ht := table10, mutexes := 7 } [21] = some 3 :=
  locked_duplicate_rejected_unresized BIG_PRIME_sample { ht := table10, mutexes := 7 }
    (locked_reachable_inserts pairs10 { ht := table7, mutexes := 7 } _
      (LockedReachable.init 5 1 _ (by decide)) (by decide))
    (by decide) (char_node 21 3) (by decide) 99

/-- Frame property of `htable_insert` on the data path, for keys that select a bucket:
on a reachable table with at least one bucket and fewer than `2 ^ 30` whose keys have
non-negative hashcodes, the insert of a key with a non-negative hashcode returns, and
the lookup of any other key with a non-negative hashcode returns the same result after
the insert as before it, whether or not the insert resizes; every entry of the table
before is an entry, with the same key, value and hashcode, of the table after. -/
theorem insert_keeps_other_lookups (BIG_PRIME : Int) (ht : htable)
    (done : List (List Int × Nat)) (hr : Reachable BIG_PRIME ht done) (hpos : 0 < ht.size)
    (h30 : ht.size < 2 ^ 30)
    (hnn : ∀ kv ∈ done, 0 ≤ hashcode BIG_PRIME kv.1) (k : List Int) (v : Nat)
    (hk0 : 0 ≤ hashcode BIG_PRIME k) (k2 : List Int) (hne : k2 ≠ k)
    (hk2 : 0 ≤ hashcode BIG_PRIME k2) :
    ∃ ht1 r, htable_insert BIG_PRIME ht k v = some (ht1, r) ∧
      htable_lookup BIG_PRIME ht1 k2 = htable_lookup BIG_PRIME ht k2 ∧
      ∀ e ∈ entries ht, e ∈ entries ht1 := by
  have hinv := reachable_inv hr
  by_cases hk : k ∈ done.map Prod.fst
  · obtain ⟨kv, hkv, hfst⟩ := List.mem_map.1 hk
    obtain ⟨k1, v1⟩ := kv
    simp only at hfst
    subst hfst
    obtain ⟨chain, hc, hmem⟩ := inv_target_of_mem hinv hkv
    exact ⟨ht, 1, insert_eq_dup hc ⟨_, hmem, rfl, rfl⟩ v, rfl, fun e he => he⟩
  · obtain ⟨ht1, hins, hinv1, hsz⟩ := insert_fresh_total hinv hpos h30 hnn hk0 hk v
    refine ⟨ht1, 0, hins, ?_, ?_⟩
    · by_cases hk2m : k2 ∈ done.map Prod.fst
      · obtain ⟨kv, hkv, hfst⟩ := List.mem_map.1 hk2m
        obtain ⟨k3, v3⟩ := kv
        simp only at hfst
        subst hfst
        rw [lookup_of_mem hinv hkv, lookup_of_mem hinv1 (List.mem_cons_of_mem _ hkv)]
      · obtain ⟨c0, hc0⟩ := target_chain_of_nonneg hinv.1 hpos hk2
        obtain ⟨c1, hc1⟩ := target_chain_of_nonneg hinv1.1 (show 0 < ht1.size by omega) hk2
        have hk2m1 : k2 ∉ ((k, v) :: done).map Prod.fst := by
          simp only [List.map_cons, List.mem_cons, not_or]
          exact ⟨hne, hk2m⟩
        rw [lookup_of_not_mem hinv hk2m hc0, lookup_of_not_mem hinv1 hk2m1 hc1]
    · intro e he
      obtain ⟨kv, hkv, rfl⟩ := (inv_mem_entries hinv e).1 he
      exact (inv_mem_entries hinv1 _).2 ⟨kv, List.mem_cons_of_mem _ hkv, rfl⟩

/-- The frame property at a concrete input: the eleventh insert into bucket 0, which
resizes the table, and the lookup of the key 14. -/
theorem insert_keeps_other_lookups_witness :
    ∃ ht1 r, htable_insert BIG_PRIME_sample table10 [77] 11 = some (ht1, r) ∧
      htable_lookup BIG_PRIME_sample ht1 [14] = htable_lookup BIG_PRIME_sample table10 [14] ∧
      ∀ e ∈ entries table10, e ∈ entries ht1 :=
  insert_keeps_other_lookups BIG_PRIME_sample table10 pairs10.reverse reachable_table10
    (by decide) (by decide) (by decide) [77] 11 (by decide) [14] (by decide) (by decide)

set_option maxRecDepth 100000 in
/-- C3, evaluation at the failing input: on the reachable table `table10` the lookup of
the key of the single char -7 (the byte 0xF9 read as a signed char), which differs from
the key 77 and is in no entry, returns `NULL`; the insert of the key 77 returns 0 and
resizes the table to the 17 buckets of `table17`; after it the index `-7 % 17` is -7 and
the same lookup has no defined result. -/
theorem lookup_undefined_after_resize :
    htable_lookup BIG_PRIME_sample table10 [-7] = some NULL ∧
      htable_insert BIG_PRIME_sample table10 [77] 11 = some (table17, 0) ∧
      htable_size table17 = 17 ∧
      slot_of (hashcode BIG_PRIME_sample [-7]) table17.size = some (-7) ∧
      htable_lookup BIG_PRIME_sample table17 [-7] = none := by
  decide

/-! ## Lookup of a key that was not inserted (C4) -/

/-- Not found, for keys that select a bucket: on a reachable table with at least one
bucket the lookup of a key with a non-negative hashcode that no successful insert has
stored returns `NULL`. -/
theorem lookup_absent_null (BIG_PRIME : Int) (ht : htable) (done : List (List Int × Nat))
    (hr : Reachable BIG_PRIME ht done) (hpos : 0 < ht.size) (k : List Int)
    (hk0 : 0 ≤ hashcode BIG_PRIME k) (hk : k ∉ done.map Prod.fst) :
    htable_lookup BIG_PRIME ht k = some NULL := by
  have hinv := reachable_inv hr
  obtain ⟨chain, hc⟩ := target_chain_of_nonneg hinv.1 hpos hk0
  exact lookup_of_not_mem hinv hk hc

/-- The lookup of an absent key at a concrete input: the key 77 on `table10`. -/
theorem lookup_absent_null_witness :
    htable_lookup BIG_PRIME_sample table10 [77] = some NULL :=
  lookup_absent_null BIG_PRIME_sample table10 pairs10.reverse reachable_table10
    (by decide) [77] (by decide) (by decide)

/-- On a freshly initialised table with at least one bucket the lookup of every key with
a non-negative hashcode returns `NULL`. -/
theorem lookup_fresh_null (BIG_PRIME : Int) (sz ar : Int) (ht : htable)
    (hi : htable_init sz ar = some ht) (hpos : 0 < ht.size) (k : List Int)
    (hk0 : 0 ≤ hashcode BIG_PRIME k) : htable_lookup BIG_PRIME ht k = some NULL :=
  lookup_absent_null BIG_PRIME ht [] (Reachable.init sz ar ht hi) hpos k hk0 (by simp)

/-- C4, evaluation at the failing input: on the freshly initialised table of
`htable_init(ht, 5, 1)` the lookup of the never inserted key of the single char -1 (the
byte 0xFF read as a signed char) computes the index `-1 % 7`, which is -1, and has no
defined result: it does not return `NULL`. -/
theorem lookup_negative_char_undefined :
    htable_init 5 1 = some table7 ∧
      slot_of (hashcode BIG_PRIME_sample [-1]) table7.size = some (-1) ∧
      store_get table7.store (-1) = none ∧
      htable_lookup BIG_PRIME_sample table7 [-1] = none := by
  decide

/-! ## Key uniqueness (C5) -/

/-- C5: in every table reachable from `htable_init` by calls of `htable_insert`, the
resizing ones included, no two entries have the same key: the list of the keys of all
the entries of the table has no repetition. -/
theorem reachable_keys_unique (BIG_PRIME : Int) (ht : htable)
    (done : List (List Int × Nat)) (hr : Reachable BIG_PRIME ht done) :
    ((entries ht).map node.key).Nodup :=
  inv_unique_keys (reachable_inv hr)

/-- The key uniqueness at a concrete input: the resized table `table17`, reached from
`table10` by the insert of the key 77. -/
theorem reachable_keys_unique_witness : ((entries table17).map node.key).Nodup :=
  reachable_keys_unique BIG_PRIME_sample table17 (([77], 11) :: pairs10.reverse)
    (Reachable.insert table10 table17 pairs10.reverse [77] 11 0 reachable_table10
      (by decide))

/-! ## Resize transparency (C6) -/

/-- Resize transparency on the data path, for tables whose hashcodes select a bucket: on
a table whose array has `size` slots, `1 <= size < 2 ^ 30`, and whose entries all have a
non-negative hashcode, `htable_resize` returns, the entries (key, value, hashcode) after
it are a permutation of the entries before it, and, when the table satisfies the
invariant for a list of pairs, the lookup of every key of the list returns its value
before and after. -/
theorem resize_transparent (BIG_PRIME : Int) (ht : htable) (hw : well_sized ht)
    (h1 : 1 ≤ ht.size) (h30 : ht.size < 2 ^ 30) (hnn : ∀ e ∈ entries ht, 0 ≤ e.hashcode) :
    ∃ ht1, htable_resize ht = some ht1 ∧ (entries ht1).Perm (entries ht) ∧
      ∀ done, table_inv BIG_PRIME ht done → ∀ kv ∈ done,
        htable_lookup BIG_PRIME ht kv.1 = some kv.2 ∧
          htable_lookup BIG_PRIME ht1 kv.1 = some kv.2 := by
  obtain ⟨ht1, hr⟩ := resize_total ht hw h1 h30 hnn
  refine ⟨ht1, hr, (resize_props ht ht1 hw hr).2.2, ?_⟩
  intro done hinv kv hkv
  obtain ⟨k, v⟩ := kv
  exact ⟨lookup_of_mem hinv hkv, lookup_of_mem (resize_inv hinv hr) hkv⟩

/-- The resize transparency at a concrete input: the table `table10`. -/
theorem resize_transparent_witness :
    ∃ ht1, htable_resize table10 = some ht1 ∧ (entries ht1).Perm (entries table10) ∧
      ∀ done, table_inv BIG_PRIME_sample table10 done → ∀ kv ∈ done,
        htable_lookup BIG_PRIME_sample table10 kv.1 = some kv.2 ∧
          htable_lookup BIG_PRIME_sample ht1 kv.1 = some kv.2 :=
  resize_transparent BIG_PRIME_sample table10 ⟨⟨by decide, by decide⟩, by decide⟩ (by decide)
    (by decide) (by decide)

set_option maxRecDepth 100000 in
/-- C6, evaluation at the failing input: the ten inserts of `pairs_neg` into the table
of `htable_init(ht, 5, 1)` return 0 and give `table_neg10`, whose bucket 0 holds the
entry of the key of the single char -7 (the byte 0xF9 read as a signed char) with
hashcode -7; the insert of the key 70 appends its node and calls `htable_resize` on
`table_neg11`; there the new size is 17, the new index of the entry of hashcode -7 is
`-7 % 17`, which is -7, outside the new array of 17 buckets, and the resize (and with
it the insert) has no defined result. -/
theorem resize_negative_hash_undefined :
    htable_inserts BIG_PRIME_sample table7 [] pairs_neg
        = some (table_neg10, pairs_neg.reverse) ∧
      append_node BIG_PRIME_sample table_neg10 [70] 11 chain_neg = table_neg11 ∧
      char_node (-7) 1 ∈ entries table_neg11 ∧
      get_prime (2 * table_neg11.size) = some 17 ∧
      slot_of (char_node (-7) 1).hashcode 17 = some (-7) ∧
      htable_resize table_neg11 = none ∧
      htable_insert BIG_PRIME_sample table_neg10 [70] 11 = none := by
  decide

/-! ## Resize trigger (C7) -/

/-- The resize trigger on the data path: on every reachable table, for a key whose target
bucket holds the chain `chain`: the insert of a key that the table has returns 1 and
leaves the table (and its bucket count) as it is; the insert of a key that the table
does not have calls `htable_resize`, on the table with the new node appended, exactly
when `allow_resize` is non-zero and the chain with the new node appended is longer than
`MAX_COLLISION` (10); in that case the bucket count of a result is larger than before,
and the data path returns 0 when the table has fewer than `2 ^ 30` buckets and the
hashcodes of all the keys are non-negative; otherwise the insert returns 0 with the new
node appended and the bucket count unchanged. -/
theorem resize_trigger_data_path (BIG_PRIME : Int) (ht : htable)
    (done : List (List Int × Nat))
    (hr : Reachable BIG_PRIME ht done) (k : List Int) (v : Nat) (chain : List node)
    (hc : target_chain BIG_PRIME ht k = some chain) :
    (k ∈ done.map Prod.fst → htable_insert BIG_PRIME ht k v = some (ht, 1)) ∧
    (k ∉ done.map Prod.fst →
      (ht.allow_resize ≠ 0 ∧
          MAX_COLLISION < ((chain ++ [node_of BIG_PRIME (k, v)]).length : Int) →
        htable_insert BIG_PRIME ht k v =
            (htable_resize (append_node BIG_PRIME ht k v chain)).map (fun t => (t, 0)) ∧
          (∀ ht1 r, htable_insert BIG_PRIME ht k v = some (ht1, r) →
            htable_size ht < htable_size ht1) ∧
          (ht.size < 2 ^ 30 → (∀ kv ∈ done, 0 ≤ hashcode BIG_PRIME kv.1) →
            0 ≤ hashcode BIG_PRIME k →
            ∃ ht1, htable_insert BIG_PRIME ht k v = some (ht1, 0))) ∧
      (¬ (ht.allow_resize ≠ 0 ∧
          MAX_COLLISION < ((chain ++ [node_of BIG_PRIME (k, v)]).length : Int)) →
        htable_insert BIG_PRIME ht k v = some (append_node BIG_PRIME ht k v chain, 0) ∧
          htable_size (append_node BIG_PRIME ht k v chain) = htable_size ht)) := by
  have hinv := reachable_inv hr
  obtain ⟨hdup, hfresh⟩ := inv_chain_cases hinv hc
  have hlen : MAX_COLLISION < ((chain ++ [node_of BIG_PRIME (k, v)]).length : Int) ↔
      MAX_COLLISION ≤ (chain.length : Int) := by
    simp only [List.length_append, List.length_singleton, Nat.cast_add, Nat.cast_one]
    omega
  have h1 : 1 ≤ ht.size := inv_size_pos_of_target hinv.1 hc
  have h31 : ht.size < 2 ^ 31 := hinv.1.1.2
  refine ⟨fun hk => insert_eq_dup hc (hdup hk) v, fun hk => ⟨?_, ?_⟩⟩
  · intro hcond
    have hcond1 : ht.allow_resize ≠ 0 ∧ MAX_COLLISION ≤ (chain.length : Int) :=
      ⟨hcond.1, hlen.1 hcond.2⟩
    have heq := insert_eq_fresh hc (hfresh hk) v
    rw [if_pos hcond1] at heq
    refine ⟨heq, ?_, ?_⟩
    · intro ht1 r hins
      rw [heq] at hins
      cases hres : htable_resize (append_node BIG_PRIME ht k v chain) with
      | none => rw [hres] at hins; cases hins
      | some ht2 =>
        rw [hres] at hins
        simp only [Option.map_some', Option.some.injEq, Prod.mk.injEq] at hins
        obtain ⟨rfl, _⟩ := hins
        have := (resize_size _ ht2 (by show 1 ≤ ht.size; exact h1)
          (by show ht.size < 2 ^ 31; exact h31) hres).1.2.1
        change 2 * ht.size ≤ ht2.size at this
        show ht.size < ht2.size
        omega
    · intro h30 hnn hk0
      obtain ⟨ht1, hins, _⟩ := insert_fresh_total hinv (by omega) h30 hnn hk0 hk v
      exact ⟨ht1, hins⟩
  · intro hcond
    have hcond1 : ¬ (ht.allow_resize ≠ 0 ∧ MAX_COLLISION ≤ (chain.length : Int)) :=
      fun h => hcond ⟨h.1, hlen.2 h.2⟩
    have heq := insert_eq_fresh hc (hfresh hk) v
    rw [if_neg hcond1] at heq
    exact ⟨heq, rfl⟩

set_option maxRecDepth 100000 in
/-- The resize trigger on the data path at a concrete input: the table of 7 buckets with
resize allowed; the ten keys 7, 14, ..., 70 go to bucket 0 and leave 7 buckets; on the
eleventh key 77 of bucket 0 the data path gives 17 buckets. -/
theorem resize_trigger_data_path_witness :
    htable_init 5 1 = some table7 ∧
      htable_inserts BIG_PRIME_sample table7 [] pairs10 = some (table10, pairs10.reverse) ∧
      htable_size table10 = 7 ∧
      htable_insert BIG_PRIME_sample table10 [77] 11 = some (table17, 0) ∧
      htable_size table17 = 17 :=
  ⟨by decide, by decide, by decide,
    (((resize_trigger_data_path BIG_PRIME_sample table10 pairs10.reverse reachable_table10
      [77] 11 (table10.store.headD []) (by decide)).2 (by decide)).1 (by decide)).1.trans
      (by decide),
    by decide⟩

set_option maxRecDepth 100000 in
/-- C7, evaluation at the failing input: `htable_init(ht, 5, 1)` gives 7 buckets and 7
mutexes, and the ten inserts of `pairs_neg` return, every `&mutexes[slot]` inside the
array, and give `table_neg10`: still 7 buckets (no resize so far), resize allowed, the
ten nodes in bucket 0, the first of them with the hashcode -7 of the char 0xF9 read as
a signed char.  The key 70 is the key of no entry and selects bucket 0; with its node
appended the chain has 11 nodes, more than `MAX_COLLISION`: the condition of the claim
holds.  The insert of the key 70 has no defined result, with the mutex array or
without: it does not return with a larger bucket count. -/
theorem resize_trigger_negative_hash_undefined :
    locked_init 5 1 = some { ht := table7, mutexes := 7 } ∧
      locked_inserts BIG_PRIME_sample { ht := table7, mutexes := 7 } pairs_neg
        = some { ht := table_neg10, mutexes := 7 } ∧
      htable_size table_neg10 = 7 ∧
      [70] ∉ (entries table_neg10).map node.key ∧
      target_chain BIG_PRIME_sample table_neg10 [70] = some chain_neg ∧
      table_neg10.allow_resize ≠ 0 ∧
      (chain_neg ++ [node_of BIG_PRIME_sample ([70], 11)]).length = 11 ∧
      MAX_COLLISION < ((chain_neg ++ [node_of BIG_PRIME_sample ([70], 11)]).length : Int) ∧
      htable_insert BIG_PRIME_sample table_neg10 [70] 11 = none ∧
      locked_insert BIG_PRIME_sample { ht := table_neg10, mutexes := 7 } [70] 11 = none := by
  decide

/-! ## Resize growth (C8) -/

/-- The size that `htable_resize` computes: for every table with bucket count `s`,
`1 <= s < 2 ^ 30`, the search `get_prime(2*s)` ends and returns the least prime `p` with
`p >= 2*s`, which is larger than `s` and a value of a 32-bit `int`; every completed
`htable_resize` leaves the bucket count `p`; and the data path of the resize completes
on every table whose array has `s` slots and whose entries have non-negative
hashcodes. -/
theorem resize_growth_data_path (ht : htable) (h1 : 1 ≤ ht.size) (h30 : ht.size < 2 ^ 30) :
    ∃ p, get_prime (wrap_int (2 * ht.size)) = some p ∧ least_prime_from (2 * ht.size) p ∧
      htable_size ht < p ∧ p < 2 ^ 31 ∧
      (∀ ht1, htable_resize ht = some ht1 → htable_size ht1 = p) ∧
      (well_sized ht → (∀ e ∈ entries ht, 0 ≤ e.hashcode) →
        ∃ ht1, htable_resize ht = some ht1 ∧ htable_size ht1 = p) := by
  obtain ⟨p, hp, hprime, hle, hmin⟩ := get_prime_spec (2 * ht.size) (by omega)
  have hlt := (get_prime_lt (show 2 * ht.size < 2 ^ 31 by omega) hp).2
  rw [← wrap_int_eq (show -2 ^ 31 ≤ 2 * ht.size by omega) (by omega)] at hp
  have hsize : ∀ ht1, htable_resize ht = some ht1 → htable_size ht1 = p := by
    intro ht1 hres
    have := (resize_new_size hres).1
    rw [hp] at this
    simp only [Option.some.injEq] at this
    exact this.symm
  refine ⟨p, hp, ⟨hprime, hle, hmin⟩, by show ht.size < p; omega, hlt, hsize, ?_⟩
  intro hw hnn
  obtain ⟨ht1, hres⟩ := resize_total ht hw h1 h30 hnn
  exact ⟨ht1, hres, hsize ht1 hres⟩

/-- The size that `htable_resize` computes at a concrete input: the table `table10` of 7
buckets. -/
theorem resize_growth_data_path_witness :
    ∃ p, get_prime (wrap_int (2 * table10.size)) = some p ∧
      least_prime_from (2 * table10.size) p ∧
      htable_size table10 < p ∧ p < 2 ^ 31 ∧
      (∀ ht1, htable_resize table10 = some ht1 → htable_size ht1 = p) ∧
      (well_sized table10 → (∀ e ∈ entries table10, 0 ≤ e.hashcode) →
        ∃ ht1, htable_resize table10 = some ht1 ∧ htable_size ht1 = p) :=
  resize_growth_data_path table10 (by decide) (by decide)

set_option maxRecDepth 100000 in
/-- C8, evaluation at the failing input: `table_neg11` is the table on which the insert
of the key 70 into `table_neg10` calls `htable_resize`; it has 7 buckets and its array
has 7 slots.  The resize computes the new size 17 and allocates 17 empty buckets; the
node of hashcode -7 in the chain of bucket 0 gets the index `-7 % 17`, which is -7, and
`new_store[-7]` is outside the new array: the rehoming of the chain, and with it the
resize, has no defined result.  The statement `ht->size = new_size` is not reached: the
bucket count is not set to 17. -/
theorem resize_growth_negative_hash_undefined :
    append_node BIG_PRIME_sample table_neg10 [70] 11 chain_neg = table_neg11 ∧
      htable_size table_neg11 = 7 ∧ table_neg11.store.length = 7 ∧
      get_prime (wrap_int (2 * table_neg11.size)) = some 17 ∧
      alloc_store 17 = some (List.replicate 17 []) ∧
      table_neg11.store[0]? = some (chain_neg ++ [char_node 70 11]) ∧
      Int.tmod (char_node (-7) 1).hashcode 17 = -7 ∧
      store_get (List.replicate 17 []) (-7) = none ∧
      rehome_chain 17 (chain_neg ++ [char_node 70 11]) (List.replicate 17 []) = none ∧
      htable_resize table_neg11 = none := by
  decide

/-! ## Initial size (C9) -/

/-- C9, as amended: for every size hint `min_size` with `1 <= min_size < 2 ^ 31 - 1`,
`htable_init` returns a table whose `htable_size` is the least prime that is at least
`min_size + 1`, that is the least prime strictly greater than `min_size`; it is a value
of a 32-bit `int`, and the array `mutexes` gets as many mutexes. -/
theorem init_size (sz ar : Int) (h : 1 ≤ sz) (h2 : sz < 2 ^ 31 - 1) :
    ∃ ht, htable_init sz ar = some ht ∧ least_prime_from (sz + 1) (htable_size ht) ∧
      least_prime_above sz (htable_size ht) ∧ htable_size ht < 2 ^ 31 ∧
      locked_init sz ar = some { ht := ht, mutexes := (htable_size ht).toNat } := by
  obtain ⟨p, hp, hprime, hle, hmin⟩ := get_prime_spec (sz + 1) (by omega)
  have hlt := (get_prime_lt (show sz + 1 < 2 ^ 31 by omega) hp).2
  rw [← wrap_int_eq (show -2 ^ 31 ≤ sz + 1 by omega) (by omega)] at hp
  have hinit : htable_init sz ar
      = some { size := p, store := List.replicate p.toNat [], allow_resize := ar } := by
    unfold htable_init
    rw [hp]
    simp only [alloc_store_pos (show 0 ≤ p by omega)]
  refine ⟨{ size := p, store := List.replicate p.toNat [], allow_resize := ar }, hinit,
    ⟨hprime, hle, hmin⟩,
    ⟨hprime, by show sz < p; omega, fun q hq hlo => hmin q hq (by omega)⟩, hlt, ?_⟩
  unfold locked_init
  rw [hinit]
  rfl

/-- The initial size at the concrete input of the claim: the size hint 5 gives the
least prime from 6 on, which is 7. -/
theorem init_size_witness :
    (∃ ht, htable_init 5 1 = some ht ∧ least_prime_from (5 + 1) (htable_size ht) ∧
      least_prime_above 5 (htable_size ht) ∧ htable_size ht < 2 ^ 31 ∧
      locked_init 5 1 = some { ht := ht, mutexes := (htable_size ht).toNat }) ∧
      (htable_init 5 1).map htable_size = some 7 :=
  ⟨init_size 5 1 (by decide) (by decide), by decide⟩

/-- C9, counterexample: the size hint 4 gives 5 buckets, and 5 is not strictly greater
than `4 + 1` (the least prime above `4 + 1` is 7); the size hint 0 gives 1 bucket, and
1 is not a prime; the size hint -2 makes the `assert` of `htable_init` fail; at the size
hint `2 ^ 31 - 1`, the largest `int`, the sum `sz + 1` overflows to `-2 ^ 31`,
`get_prime` hands that back and the `assert` of `htable_init` fails. -/
theorem init_size_counterexample :
    (htable_init 4 1).map htable_size = some 5 ∧ ¬ least_prime_above (4 + 1) 5 ∧
      least_prime_above (4 + 1) 7 ∧
      (htable_init 0 1).map htable_size = some 1 ∧ ¬ least_prime_above (0 + 1) 1 ∧
      htable_init (-2) 1 = none ∧
      wrap_int ((2 ^ 31 - 1) + 1) = -2 ^ 31 ∧ get_prime (-2 ^ 31) = some (-2 ^ 31) ∧
      htable_init (2 ^ 31 - 1) 1 = none := by
  refine ⟨by decide, ?_, ?_, by decide, ?_, by decide, by decide, by decide, by decide⟩
  · intro h; exact absurd h.2.1 (by decide)
  · refine ⟨by show Nat.Prime 7; norm_num, by decide, ?_⟩
    intro q hq hlt
    by_contra hcon
    have hq6 : q = 6 := by omega
    subst hq6
    have h6 : Nat.Prime 6 := hq
    exact absurd h6 (by norm_num)
  · intro h
    have h1 : Nat.Prime 1 := h.1
    exact absurd h1 (by norm_num)

/-! ## Bucket placement (C10) -/

/-- C10: in every table reachable from `htable_init` by completed calls of
`htable_insert`, the resizing ones included, every entry `e` in the chain of bucket `i`
satisfies `e.hashcode % size == i`, and `e.hashcode` is `hashcode(e.key)`. -/
theorem reachable_placed (BIG_PRIME : Int) (ht : htable) (done : List (List Int × Nat))
    (hr : Reachable BIG_PRIME ht done) (i : Nat) (chain : List node)
    (hi : ht.store[i]? = some chain) (e : node) (he : e ∈ chain) :
    Int.tmod e.hashcode (htable_size ht) = i ∧ e.hashcode = hashcode BIG_PRIME e.key :=
  inv_placed (reachable_inv hr) i chain hi e he

/-- The bucket placement at a concrete input: the node of the key 28 in bucket 11 of the
resized table `table17`. -/
theorem reachable_placed_witness :
    Int.tmod (char_node 28 4).hashcode (htable_size table17) = (11 : Nat) ∧
      (char_node 28 4).hashcode = hashcode BIG_PRIME_sample (char_node 28 4).key :=
  reachable_placed BIG_PRIME_sample table17 (([77], 11) :: pairs10.reverse)
    (Reachable.insert table10 table17 pairs10.reverse [77] 11 0 reachable_table10
      (by decide)) 11 [char_node 28 4] (by decide) (char_node 28 4) (by decide)

/-! ## The lock calls of `htable_insert` and `htable_lookup` -/

/-- Without its lock events `htable_insert_traced` is `htable_insert`. -/
theorem insert_traced_result (BIG_PRIME : Int) (ht : htable) (key : List Int) (val : Nat) :
    (htable_insert_traced BIG_PRIME ht key val).map Prod.fst =
      htable_insert BIG_PRIME ht key val := by
  unfold htable_insert_traced htable_insert htable_resize_traced
  simp only
  cases slot_of (hashcode BIG_PRIME key) ht.size with
  | none => rfl
  | some slot =>
    simp only
    cases store_get ht.store slot with
    | none => rfl
    | some chain =>
      simp only
      cases insert_walk (hashcode BIG_PRIME key) key chain 0 with
      | none => rfl
      | some collision =>
        simp only
        split
        · cases htable_resize _ <;> rfl
        · rfl

/-- Without its lock events `htable_lookup_traced` is `htable_lookup`. -/
theorem lookup_traced_result (BIG_PRIME : Int) (ht : htable) (key : List Int) :
    (htable_lookup_traced BIG_PRIME ht key).map Prod.fst =
      htable_lookup BIG_PRIME ht key := by
  unfold htable_lookup_traced htable_lookup
  simp only
  cases slot_of (hashcode BIG_PRIME key) ht.size with
  | none => rfl
  | some slot =>
    simp only
    cases store_get ht.store slot <;> rfl

/-- The shape of the lock events of a returning `htable_insert`: the read lock, the
mutex of the slot, the two write-lock calls when the table is resized, the mutex of the
same slot, the read lock. -/
theorem insert_traced_shape {BIG_PRIME : Int} {ht : htable} {key : List Int} {val : Nat}
    {res : htable × Int} {tr : List lock_event}
    (h : htable_insert_traced BIG_PRIME ht key val = some (res, tr)) :
    ∃ slot, slot_of (hashcode BIG_PRIME key) ht.size = some slot ∧
      (tr = [lock_event.rlock, lock_event.mutex_lock slot, lock_event.mutex_unlock slot,
          lock_event.runlock] ∨
        (tr = [lock_event.rlock, lock_event.mutex_lock slot, lock_event.wlock,
          lock_event.wunlock, lock_event.mutex_unlock slot, lock_event.runlock] ∧
          res.2 = 0 ∧ ht.allow_resize ≠ 0)) := by
  unfold htable_insert_traced htable_resize_traced at h
  simp only at h
  split at h
  · cases h
  · rename_i slot hslot
    refine ⟨slot, hslot, ?_⟩
    split at h
    · cases h
    · split at h
      · simp only [Option.some.injEq, Prod.mk.injEq] at h
        exact Or.inl h.2.symm
      · split at h
        · rename_i hcond
          split at h
          · cases h
          · rename_i r hr
            split at hr
            · cases hr
            · simp only [Option.some.injEq] at hr
              subst hr
              simp only [Option.some.injEq, Prod.mk.injEq] at h
              refine Or.inr ⟨?_, ?_, hcond.1⟩
              · rw [← h.2]; rfl
              · rw [← h.1]
        · simp only [Option.some.injEq, Prod.mk.injEq] at h
          exact Or.inl h.2.symm

theorem held_after_short (slot : Int) :
    held_after { readers := 0, writers := 0, mutexes := [] }
      [lock_event.rlock, lock_event.mutex_lock slot, lock_event.mutex_unlock slot,
        lock_event.runlock] = { readers := 0, writers := 0, mutexes := [] } := by
  simp [held_after, held_step]

theorem held_after_long (slot : Int) :
    held_after { readers := 0, writers := 0, mutexes := [] }
      [lock_event.rlock, lock_event.mutex_lock slot, lock_event.wlock, lock_event.wunlock,
        lock_event.mutex_unlock slot, lock_event.runlock]
      = { readers := 0, writers := 0, mutexes := [] } := by
  simp [held_after, held_step]

/-- Every run of `htable_insert` that calls `htable_resize` takes the write lock while
it holds the read lock and the mutex of the slot. -/
theorem insert_resize_upgrades {BIG_PRIME : Int} {ht : htable} {key : List Int} {val : Nat}
    {res : htable × Int} {tr : List lock_event}
    (h : htable_insert_traced BIG_PRIME ht key val = some (res, tr))
    (hw : lock_event.wlock ∈ tr) :
    no_upgrade { readers := 0, writers := 0, mutexes := [] } tr = false := by
  obtain ⟨slot, _, hshape⟩ := insert_traced_shape h
  rcases hshape with hs | ⟨hs, _, _⟩
  · subst hs; simp at hw
  · subst hs
    simp [no_upgrade, held_step]

/-! ## Mutex array (C12) -/

set_option maxRecDepth 100000 in
/-- C12, evaluation at the failing input: `htable_init(ht, 5, 1)` gives 7 buckets and 7
mutexes; after the inserts of the keys 7, 14, ..., 70 and 77 the table has the 17
buckets of `table17` and still 7 mutexes; the key 7, which the table holds, has the
index `7 % 17`, which is 7, and `&mutexes[7]` is outside the array of 7 mutexes, so the
lookup of that key has no defined result. -/
theorem mutexes_not_resized :
    locked_init 5 1 = some { ht := table7, mutexes := 7 } ∧
      locked_inserts BIG_PRIME_sample { ht := table7, mutexes := 7 }
          (pairs10 ++ [([77], 11)]) = some { ht := table17, mutexes := 7 } ∧
      htable_size table17 = 17 ∧
      slot_of (hashcode BIG_PRIME_sample [7]) table17.size = some 7 ∧
      mutex_in_range 7 7 = false ∧
      locked_lookup BIG_PRIME_sample { ht := table17, mutexes := 7 } [7] = none := by
  decide

/-- The array `mutexes` keeps the length that `htable_init` gave it: `htable_insert`
leaves it as it is, also when it resizes the table. -/
theorem locked_insert_mutexes {BIG_PRIME : Int} {lt lt1 : locked_htable} {key : List Int}
    {val : Nat} {r : Int} (h : locked_insert BIG_PRIME lt key val = some (lt1, r)) :
    lt1.mutexes = lt.mutexes ∧ htable_insert BIG_PRIME lt.ht key val = some (lt1.ht, r) := by
  unfold locked_insert at h
  split at h
  · cases h
  · split at h
    · split at h
      · cases h
      · rename_i res hres
        simp only [Option.some.injEq, Prod.mk.injEq] at h
        obtain ⟨h1, h2⟩ := h
        subst h1 h2
        exact ⟨rfl, hres⟩
    · cases h

/-! ## Lock upgrade (C13) -/

/-- C13, evaluation at the failing input: the insert of the key 77 into `table10`, the
eleventh key of bucket 0, returns 0 and resizes the table; its lock events are the read
lock, the mutex of slot 0, the write lock of `htable_resize`, its release, the release
of the mutex and of the read lock; at the write lock the thread holds the read lock
once and the mutex of slot 0. -/
theorem resize_under_read_lock :
    htable_insert_traced BIG_PRIME_sample table10 [77] 11 =
        some ((table17, 0), [lock_event.rlock, lock_event.mutex_lock 0, lock_event.wlock,
          lock_event.wunlock, lock_event.mutex_unlock 0, lock_event.runlock]) ∧
      held_after { readers := 0, writers := 0, mutexes := [] }
          [lock_event.rlock, lock_event.mutex_lock 0]
        = { readers := 1, writers := 0, mutexes := [0] } ∧
      no_upgrade { readers := 0, writers := 0, mutexes := [] }
          [lock_event.rlock, lock_event.mutex_lock 0, lock_event.wlock,
            lock_event.wunlock, lock_event.mutex_unlock 0, lock_event.runlock] = false := by
  decide

/-! ## The write lock of `htable_resize`, with the lock of the specification -/

/-- With the lock of the specification, a request for the write lock while a reader is
active, as `htable_resize` makes it inside `htable_insert`, is queued and is not granted
as long as the reader is active; when the reader is the calling thread itself, the call
does not return. -/
theorem write_lock_blocked_by_own_read_lock (l : rwl) (h : 0 < l.readers) :
    rwl_step l rwl_event.wlock_call = some { l with askwrite := l.askwrite + 1 } ∧
      rwl_step l rwl_event.wlock_wake = none ∧ rwl_call l lock_event.wlock = none := by
  have hne : ¬ (l.readers = 0 ∧ l.writer = 0) := fun hc => by omega
  have hne2 : ¬ (0 < l.askwrite ∧ l.readers = 0 ∧ l.writer = 0) := fun hc => by omega
  refine ⟨?_, ?_, ?_⟩
  · simp only [rwl_step, if_neg hne]
  · simp only [rwl_step, if_neg hne2]
  · simp only [rwl_call, if_neg hne]

/-- With the lock of the specification and the thread running alone, the lock calls of a
run of `htable_insert` that does not resize all return and leave the lock free, and the
run of a resizing `htable_insert` stops at the write lock of `htable_resize`, which does
not return: the data path result of a resizing insert is the result of the program only
with a lock that lets this writer pass. -/
theorem resizing_insert_blocks {BIG_PRIME : Int} {ht : htable} {key : List Int} {val : Nat}
    {res : htable × Int} {tr : List lock_event}
    (h : htable_insert_traced BIG_PRIME ht key val = some (res, tr)) :
    (lock_event.wlock ∉ tr → rwl_calls rwl_init tr = some rwl_init) ∧
      (lock_event.wlock ∈ tr → rwl_calls rwl_init tr = none) := by
  obtain ⟨slot, _, hshape⟩ := insert_traced_shape h
  rcases hshape with hs | ⟨hs, _, _⟩
  · subst hs
    refine ⟨fun _ => by simp [rwl_calls, rwl_call, rwl_step, rwl_init], fun hw => ?_⟩
    simp at hw
  · subst hs
    refine ⟨fun hw => ?_, fun _ => by simp [rwl_calls, rwl_call, rwl_step, rwl_init]⟩
    simp at hw

/-- The lock calls of the eleventh insert into bucket 0 of `table10`, with the lock of
the specification and the thread running alone: the write lock does not return. -/
theorem resizing_insert_blocks_witness :
    (lock_event.wlock ∉ [lock_event.rlock, lock_event.mutex_lock 0, lock_event.wlock,
        lock_event.wunlock, lock_event.mutex_unlock 0, lock_event.runlock] →
      rwl_calls rwl_init [lock_event.rlock, lock_event.mutex_lock 0, lock_event.wlock,
        lock_event.wunlock, lock_event.mutex_unlock 0, lock_event.runlock]
        = some rwl_init) ∧
      (lock_event.wlock ∈ [lock_event.rlock, lock_event.mutex_lock 0, lock_event.wlock,
        lock_event.wunlock, lock_event.mutex_unlock 0, lock_event.runlock] →
      rwl_calls rwl_init [lock_event.rlock, lock_event.mutex_lock 0, lock_event.wlock,
        lock_event.wunlock, lock_event.mutex_unlock 0, lock_event.runlock] = none) :=
  resizing_insert_blocks
    (show htable_insert_traced BIG_PRIME_sample table10 [77] 11 = some ((table17, 0), _)
      by decide)

/-! ## Balanced locking (C14) -/

/-- C14: every returning run of `htable_insert` (duplicate found, inserted without
resize, inserted with resize) and of `htable_lookup` (found, not found) takes the read
lock and then the mutex of the target slot, and ends with the release of the mutex of
the same slot followed by the release of the read lock; each is taken and released
exactly once (the only other lock calls are the write lock and its release inside a
resize), and the run ends holding no lock. -/
theorem balanced_locking (BIG_PRIME : Int) (ht : htable) (key : List Int) :
    (∀ (val : Nat) (res : htable × Int) (tr : List lock_event),
      htable_insert_traced BIG_PRIME ht key val = some (res, tr) →
      ∃ slot, slot_of (hashcode BIG_PRIME key) ht.size = some slot ∧
        (tr = [lock_event.rlock, lock_event.mutex_lock slot, lock_event.mutex_unlock slot,
            lock_event.runlock] ∨
          tr = [lock_event.rlock, lock_event.mutex_lock slot, lock_event.wlock,
            lock_event.wunlock, lock_event.mutex_unlock slot, lock_event.runlock]) ∧
        held_after { readers := 0, writers := 0, mutexes := [] } tr
          = { readers := 0, writers := 0, mutexes := [] }) ∧
    (∀ (v : Nat) (tr : List lock_event),
      htable_lookup_traced BIG_PRIME ht key = some (v, tr) →
      ∃ slot, slot_of (hashcode BIG_PRIME key) ht.size = some slot ∧
        tr = [lock_event.rlock, lock_event.mutex_lock slot, lock_event.mutex_unlock slot,
          lock_event.runlock] ∧
        held_after { readers := 0, writers := 0, mutexes := [] } tr
          = { readers := 0, writers := 0, mutexes := [] }) := by
  constructor
  · intro val res tr h
    obtain ⟨slot, hslot, hshape⟩ := insert_traced_shape h
    refine ⟨slot, hslot, ?_, ?_⟩
    · rcases hshape with hs | ⟨hs, _, _⟩
      · exact Or.inl hs
      · exact Or.inr hs
    · rcases hshape with hs | ⟨hs, _, _⟩
      · rw [hs]; exact held_after_short slot
      · rw [hs]; exact held_after_long slot
  · intro v tr h
    unfold htable_lookup_traced at h
    simp only at h
    split at h
    · cases h
    · rename_i slot hslot
      split at h
      · cases h
      · simp only [Option.some.injEq, Prod.mk.injEq] at h
        refine ⟨slot, hslot, h.2.symm, ?_⟩
        rw [← h.2]; exact held_after_short slot

set_option maxRecDepth 100000 in
/-- The balanced locking on the five exit paths at concrete inputs: the duplicate key 21
of `table10`, the new key 1 (no resize), the new key 77 (resize), the lookup of the
stored key 21 and of the absent key 77. -/
theorem balanced_locking_witness :
    (htable_insert_traced BIG_PRIME_sample table10 [21] 99).map Prod.snd =
        some [lock_event.rlock, lock_event.mutex_lock 0, lock_event.mutex_unlock 0,
          lock_event.runlock] ∧
      (htable_insert_traced BIG_PRIME_sample table10 [1] 99).map Prod.snd =
        some [lock_event.rlock, lock_event.mutex_lock 1, lock_event.mutex_unlock 1,
          lock_event.runlock] ∧
      (htable_insert_traced BIG_PRIME_sample table10 [77] 11).map Prod.snd =
        some [lock_event.rlock, lock_event.mutex_lock 0, lock_event.wlock,
          lock_event.wunlock, lock_event.mutex_unlock 0, lock_event.runlock] ∧
      htable_lookup_traced BIG_PRIME_sample table10 [21] =
        some (3, [lock_event.rlock, lock_event.mutex_lock 0, lock_event.mutex_unlock 0,
          lock_event.runlock]) ∧
      htable_lookup_traced BIG_PRIME_sample table10 [77] =
        some (NULL, [lock_event.rlock, lock_event.mutex_lock 0, lock_event.mutex_unlock 0,
          lock_event.runlock]) ∧
      (∃ slot, slot_of (hashcode BIG_PRIME_sample [77]) table10.size = some slot ∧
        ([lock_event.rlock, lock_event.mutex_lock 0, lock_event.wlock,
            lock_event.wunlock, lock_event.mutex_unlock 0, lock_event.runlock] =
          [lock_event.rlock, lock_event.mutex_lock slot, lock_event.mutex_unlock slot,
            lock_event.runlock] ∨
        [lock_event.rlock, lock_event.mutex_lock 0, lock_event.wlock,
            lock_event.wunlock, lock_event.mutex_unlock 0, lock_event.runlock] =
          [lock_event.rlock, lock_event.mutex_lock slot, lock_event.wlock,
            lock_event.wunlock, lock_event.mutex_unlock slot, lock_event.runlock]) ∧
        held_after { readers := 0, writers := 0, mutexes := [] }
          [lock_event.rlock, lock_event.mutex_lock 0, lock_event.wlock,
            lock_event.wunlock, lock_event.mutex_unlock 0, lock_event.runlock]
          = { readers := 0, writers := 0, mutexes := [] }) :=
  ⟨by decide, by decide, by decide, by decide, by decide,
    (balanced_locking BIG_PRIME_sample table10 [77]).1 11 (table17, 0) _ (by decide)⟩

/-! ## The hash -/

theorem in_int_range_iff (x : Int) : in_int_range x = true ↔ -2 ^ 31 ≤ x ∧ x < 2 ^ 31 := by
  simp [in_int_range]

/-- At the sum `a + b = BIG_PRIME` the function `madd` returns `BIG_PRIME`, not 0: the
test is `>` where a reduction modulo `BIG_PRIME` needs `>=`. -/
theorem madd_at_modulus (BIG_PRIME a b : Int) (hab : a + b = BIG_PRIME)
    (h1 : -2 ^ 31 ≤ BIG_PRIME) (h2 : BIG_PRIME < 2 ^ 31) :
    madd BIG_PRIME a b = BIG_PRIME := by
  unfold madd
  rw [hab, wrap_int_eq h1 h2, if_neg (lt_irrefl _)]

/-- One step of the loop of `hashcode` on a value `0 <= p <= BIG_PRIME` and a char
between 0 and 255, for `255 <= BIG_PRIME` and `256 * BIG_PRIME` inside the `int` range:
nothing overflows, the new value is again between 0 and `BIG_PRIME`, and it is
congruent to `p*256 + c` modulo `BIG_PRIME`. -/
theorem hashcode_step {BIG_PRIME p c : Int} (hB : 255 ≤ BIG_PRIME)
    (hB2 : 256 * BIG_PRIME < 2 ^ 31) (hp0 : 0 ≤ p) (hp1 : p ≤ BIG_PRIME)
    (hc0 : 0 ≤ c) (hc1 : c ≤ 255) :
    in_int_range (p * 256) = true ∧
      in_int_range (mmul BIG_PRIME p 256 + c) = true ∧
      (mmul BIG_PRIME p 256 + c > BIG_PRIME →
        in_int_range (mmul BIG_PRIME p 256 + c - BIG_PRIME) = true) ∧
      0 ≤ mmul BIG_PRIME p 256 ∧ mmul BIG_PRIME p 256 < BIG_PRIME ∧
      mmul BIG_PRIME p 256 = (p * 256) % BIG_PRIME ∧
      0 ≤ madd BIG_PRIME (mmul BIG_PRIME p 256) c ∧
      madd BIG_PRIME (mmul BIG_PRIME p 256) c ≤ BIG_PRIME ∧
      madd BIG_PRIME (mmul BIG_PRIME p 256) c % BIG_PRIME
        = (p * 256 + c) % BIG_PRIME := by
  have hprod0 : 0 ≤ p * 256 := by omega
  have hprod1 : p * 256 < 2 ^ 31 := by omega
  have hm : mmul BIG_PRIME p 256 = (p * 256) % BIG_PRIME := by
    unfold mmul
    rw [wrap_int_eq (by omega) hprod1, Int.tmod_eq_emod hprod0 (by omega)]
  have hm0 : 0 ≤ (p * 256) % BIG_PRIME := Int.emod_nonneg _ (by omega)
  have hm1 : (p * 256) % BIG_PRIME < BIG_PRIME := Int.emod_lt_of_pos _ (by omega)
  rw [hm]
  have hsum : wrap_int ((p * 256) % BIG_PRIME + c) = (p * 256) % BIG_PRIME + c :=
    wrap_int_eq (by omega) (by omega)
  refine ⟨(in_int_range_iff _).2 ⟨by omega, by omega⟩,
    (in_int_range_iff _).2 ⟨by omega, by omega⟩,
    fun _ => (in_int_range_iff _).2 ⟨by omega, by omega⟩, hm0, hm1, rfl, ?_⟩
  unfold madd
  rw [hsum]
  by_cases hgt : (p * 256) % BIG_PRIME + c > BIG_PRIME
  · rw [if_pos hgt, wrap_int_eq (by omega) (by omega)]
    refine ⟨by omega, by omega, ?_⟩
    rw [Int.sub_emod, Int.emod_self, sub_zero, Int.emod_emod_of_dvd _ (dvd_refl _),
      Int.emod_add_emod]
  · rw [if_neg hgt]
    refine ⟨by omega, by omega, ?_⟩
    rw [Int.emod_add_emod]

theorem hash_fold_from (BIG_PRIME : Int) (s : List Int) (q : Int) :
    (s.foldl (fun p c => (p * 256 + byte_of c) % BIG_PRIME) q) % BIG_PRIME
      = s.foldl (fun p c => (p * 256 + byte_of c) % BIG_PRIME) (q % BIG_PRIME) := by
  induction s generalizing q with
  | nil => simp
  | cons c s ih =>
    simp only [List.foldl_cons]
    have : ((q % BIG_PRIME) * 256 + byte_of c) % BIG_PRIME
        = (q * 256 + byte_of c) % BIG_PRIME := by
      rw [Int.add_emod, Int.mul_emod, Int.emod_emod_of_dvd _ (dvd_refl _),
        ← Int.mul_emod, ← Int.add_emod]
    rw [this, ih, Int.emod_emod_of_dvd _ (dvd_refl _)]

/-- The loop of `hashcode` from a value `0 <= p <= BIG_PRIME` over chars between 0 and
255, for `255 <= BIG_PRIME` and `256 * BIG_PRIME` inside the `int` range: nothing
overflows, the result is between 0 and `BIG_PRIME`, and modulo `BIG_PRIME` it is the
fold of the specification started at `p mod BIG_PRIME`. -/
theorem hashcode_loop_spec {BIG_PRIME : Int} (hB : 255 ≤ BIG_PRIME)
    (hB2 : 256 * BIG_PRIME < 2 ^ 31) : ∀ (s : List Int) (p : Int), 0 ≤ p → p ≤ BIG_PRIME →
    (∀ c ∈ s, 0 ≤ c ∧ c ≤ 255) →
    hashcode_exact BIG_PRIME p s = true ∧ 0 ≤ hashcode_loop BIG_PRIME p s ∧
      hashcode_loop BIG_PRIME p s ≤ BIG_PRIME ∧
      hashcode_loop BIG_PRIME p s % BIG_PRIME
        = s.foldl (fun p c => (p * 256 + byte_of c) % BIG_PRIME) (p % BIG_PRIME) := by
  intro s
  induction s with
  | nil => intro p hp0 hp1 _; exact ⟨rfl, hp0, hp1, rfl⟩
  | cons c s ih =>
    intro p hp0 hp1 hs
    obtain ⟨hc0, hc1⟩ := hs c (List.mem_cons_self _ _)
    obtain ⟨e1, e2, e3, _, _, _, hn0, hn1, hmod⟩ := hashcode_step hB hB2 hp0 hp1 hc0 hc1
    obtain ⟨ie, i0, i1, imod⟩ := ih _ hn0 hn1 (fun d hd => hs d (List.mem_cons_of_mem _ hd))
    refine ⟨?_, i0, i1, ?_⟩
    · unfold hashcode_exact
      simp only [e1, e2, ie, Bool.and_true, Bool.true_and]
      split
      · rename_i hgt; exact e3 hgt
      · rfl
    · show hashcode_loop BIG_PRIME (madd BIG_PRIME (mmul BIG_PRIME p 256) c) s % BIG_PRIME = _
      rw [imod, hmod, List.foldl_cons]
      have hb : byte_of c = c := by
        unfold byte_of; exact Int.emod_eq_of_lt hc0 (by omega)
      rw [hb]
      have : ((p % BIG_PRIME) * 256 + c) % BIG_PRIME = (p * 256 + c) % BIG_PRIME := by
        rw [Int.add_emod, Int.mul_emod, Int.emod_emod_of_dvd _ (dvd_refl _),
          ← Int.mul_emod, ← Int.add_emod]
      rw [this]

/-- The fold of the specification is the base-256 number reduced modulo `BIG_PRIME`. -/
theorem hash_fold_eq_base256 (BIG_PRIME : Int) (s : List Int) :
    hash_fold BIG_PRIME s = base256 s % BIG_PRIME := by
  unfold hash_fold base256
  have key : ∀ (s : List Int) (p n : Int), p = n % BIG_PRIME →
      s.foldl (fun p c => (p * 256 + byte_of c) % BIG_PRIME) p
        = (s.foldl (fun n c => n * 256 + byte_of c) n) % BIG_PRIME := by
    intro s
    induction s with
    | nil => intro p n h; simpa using h
    | cons c s ih =>
      intro p n h
      simp only [List.foldl_cons]
      apply ih
      rw [h, Int.add_emod, Int.mul_emod, Int.emod_emod_of_dvd _ (dvd_refl _),
        ← Int.mul_emod, ← Int.add_emod]
  exact key s 0 0 (by simp)

/-- What `hashcode` computes, for `255 <= BIG_PRIME`, `256 * BIG_PRIME` inside the `int`
range and a key of chars between 0 and 255: no intermediate value overflows, the result
is between 0 and `BIG_PRIME`, both included, and it is the hash of the specification
except that it is `BIG_PRIME` where the specification has 0 for a non-empty key. -/
theorem hashcode_spec (BIG_PRIME : Int) (hB : 255 ≤ BIG_PRIME)
    (hB2 : 256 * BIG_PRIME < 2 ^ 31) (s : List Int) (hs : ∀ c ∈ s, 0 ≤ c ∧ c ≤ 255) :
    hashcode_exact BIG_PRIME 0 s = true ∧ 0 ≤ hashcode BIG_PRIME s ∧
      hashcode BIG_PRIME s ≤ BIG_PRIME ∧
      hashcode BIG_PRIME s % BIG_PRIME = hash_fold BIG_PRIME s ∧
      (hashcode BIG_PRIME s = hash_fold BIG_PRIME s ∨
        (hashcode BIG_PRIME s = BIG_PRIME ∧ hash_fold BIG_PRIME s = 0)) := by
  obtain ⟨he, h0, h1, hmod⟩ := hashcode_loop_spec hB hB2 s 0 (le_refl _) (by omega) hs
  change 0 ≤ hashcode BIG_PRIME s at h0
  change hashcode BIG_PRIME s ≤ BIG_PRIME at h1
  change hashcode BIG_PRIME s % BIG_PRIME = _ at hmod
  have hmod1 : hashcode BIG_PRIME s % BIG_PRIME = hash_fold BIG_PRIME s := by
    rw [hmod]; simp [hash_fold]
  refine ⟨he, h0, h1, hmod1, ?_⟩
  rcases eq_or_lt_of_le h1 with heq | hlt
  · right
    refine ⟨heq, ?_⟩
    rw [← hmod1, heq, Int.emod_self]
  · left
    rw [← hmod1, Int.emod_eq_of_lt h0 hlt]

/-- The index `hashcode(key) % size` is inside an array of `size >= 1` slots when the
hashcode is not negative. -/
theorem slot_in_range {hcode size : Int} (h0 : 0 ≤ hcode) (hs : 1 ≤ size) :
    0 ≤ Int.tmod hcode size ∧ Int.tmod hcode size < size :=
  ⟨Int.tmod_nonneg _ h0, Int.tmod_lt_of_pos _ (by omega)⟩

/-! ## Hash definition (C15) -/

set_option maxRecDepth 100000 in
/-- C15, evaluation at the failing inputs, with the sample `BIG_PRIME` 1560007.  The key
"hvaee" (chars 104, 118, 97, 101, 101) has a base-256 number that is a multiple of
`BIG_PRIME`: the fold of the specification gives 0, and `hashcode` returns `BIG_PRIME`,
with no overflow on the way.  The key of the single char -1 (the byte 0xFF read as a
signed char) has the byte 255: the fold of the specification gives 255, and `hashcode`
returns -1. -/
theorem hashcode_differs_from_fold :
    hashcode BIG_PRIME_sample [104, 118, 97, 101, 101] = BIG_PRIME_sample ∧
      hash_fold BIG_PRIME_sample [104, 118, 97, 101, 101] = 0 ∧
      base256 [104, 118, 97, 101, 101] % BIG_PRIME_sample = 0 ∧
      hashcode_exact BIG_PRIME_sample 0 [104, 118, 97, 101, 101] = true ∧
      hashcode BIG_PRIME_sample [-1] = -1 ∧
      hash_fold BIG_PRIME_sample [-1] = 255 ∧
      base256 [-1] % BIG_PRIME_sample = 255 := by
  decide

/-- The hash definition at a concrete input, by `hashcode_spec`: the key "abc". -/
theorem hashcode_spec_witness :
    hashcode_exact BIG_PRIME_sample 0 [97, 98, 99] = true ∧
      0 ≤ hashcode BIG_PRIME_sample [97, 98, 99] ∧
      hashcode BIG_PRIME_sample [97, 98, 99] ≤ BIG_PRIME_sample ∧
      hashcode BIG_PRIME_sample [97, 98, 99] % BIG_PRIME_sample
        = hash_fold BIG_PRIME_sample [97, 98, 99] ∧
      (hashcode BIG_PRIME_sample [97, 98, 99] = hash_fold BIG_PRIME_sample [97, 98, 99] ∨
        (hashcode BIG_PRIME_sample [97, 98, 99] = BIG_PRIME_sample ∧
          hash_fold BIG_PRIME_sample [97, 98, 99] = 0)) :=
  hashcode_spec BIG_PRIME_sample (by decide) (by decide) [97, 98, 99] (by decide)

/-! ## Primality test (C18) -/

/-- C18, evaluation at the failing inputs: `is_prime` returns 1 on 1, on 0 and on -7,
none of which is a prime. -/
theorem is_prime_small_not_prime :
    is_prime 1 = some 1 ∧ ¬ Nat.Prime (1 : Int).toNat ∧
      is_prime 0 = some 1 ∧ ¬ Nat.Prime (0 : Int).toNat ∧
      is_prime (-7) = some 1 ∧ ¬ Nat.Prime (-7 : Int).toNat := by
  refine ⟨by decide, ?_, by decide, ?_, by decide, ?_⟩
  · show ¬ Nat.Prime 1; norm_num
  · show ¬ Nat.Prime 0; norm_num
  · show ¬ Nat.Prime 0; norm_num

/-- From 2 on `is_prime` is a primality test: it returns 1 on the primes and 0 on the
other integers. -/
theorem is_prime_from_two (n : Int) (h : 2 ≤ n) :
    (Nat.Prime n.toNat → is_prime n = some 1) ∧ (¬ Nat.Prime n.toNat → is_prime n = some 0) := by
  obtain ⟨r, hr, h01, hiff⟩ := is_prime_spec n
  have h23 : n ≤ 3 → Nat.Prime n.toNat := by
    intro h3
    have : n.toNat = 2 ∨ n.toNat = 3 := by omega
    rcases this with h | h <;> rw [h] <;> norm_num
  constructor
  · intro hp
    rw [hr, hiff.2 (Or.inr hp)]
  · intro hnp
    rcases h01 with h0 | h1
    · rw [hr, h0]
    · rcases hiff.1 h1 with h3 | hp
      · exact absurd (h23 h3) hnp
      · exact absurd hp hnp

/-- The primality test at concrete inputs from 2 on: 17 and 15. -/
theorem is_prime_from_two_witness :
    ((Nat.Prime (17 : Int).toNat → is_prime 17 = some 1) ∧
        (¬ Nat.Prime (17 : Int).toNat → is_prime 17 = some 0)) ∧
      is_prime 17 = some 1 ∧ is_prime 15 = some 0 :=
  ⟨is_prime_from_two 17 (by decide), by decide, by decide⟩

/-! ## Prime search (C19) -/

/-- C19: for every integer `min >= 2` the loop of `get_prime(min)` ends: with any fuel
above `p - min` it returns `p`, and so does `get_prime`, where `p` is the least prime
with `p >= min`; no integer from `min` up to `p - 1` is a prime.  When `min` is a value
of a 32-bit `int`, so is `p`: the `n++` of the search does not overflow. -/
theorem get_prime_terminates (min : Int) (h : 2 ≤ min) :
    ∃ p, get_prime min = some p ∧ least_prime_from min p ∧
      (∀ q : Int, min ≤ q → q < p → ¬ Nat.Prime q.toNat) ∧
      (∀ fuel : Nat, (p - min).toNat < fuel → get_prime_loop fuel min = some p) ∧
      (min < 2 ^ 31 → p < 2 ^ 31) := by
  obtain ⟨p, hp, hprime, hle, hmin⟩ := get_prime_spec min h
  have hnot : ∀ q : Int, min ≤ q → q < p → ¬ Nat.Prime q.toNat := by
    intro q h1 h2 hq
    have := hmin q hq h1
    omega
  refine ⟨p, hp, ⟨hprime, hle, hmin⟩, hnot, ?_, ?_⟩
  · intro fuel hf
    apply get_prime_loop_found fuel min p hle
    · intro m h1 h2
      exact (is_prime_from_two m (by omega)).2 (hnot m h1 h2)
    · exact ⟨1, (is_prime_from_two p (by omega)).1 hprime, by decide⟩
    · exact hf
  · intro hlt
    have hq : Nat.Prime ((2 ^ 31 - 1 : Int)).toNat := by
      have : ((2 ^ 31 - 1 : Int)).toNat = 2 ^ 31 - 1 := by decide
      rw [this]; exact int_max_prime
    have := hmin (2 ^ 31 - 1) hq (by omega)
    omega

/-- The prime search at a concrete input: from 14 the search returns 17. -/
theorem get_prime_terminates_witness :
    (∃ p, get_prime 14 = some p ∧ least_prime_from 14 p ∧
      (∀ q : Int, 14 ≤ q → q < p → ¬ Nat.Prime q.toNat) ∧
      (∀ fuel : Nat, (p - 14).toNat < fuel → get_prime_loop fuel 14 = some p) ∧
      ((14 : Int) < 2 ^ 31 → p < 2 ^ 31)) ∧
      get_prime 14 = some 17 :=
  ⟨get_prime_terminates 14 (by decide), by decide⟩

/-! ## Hash range (C20) -/

set_option maxRecDepth 100000 in
/-- C20, evaluation at the failing inputs, with the sample `BIG_PRIME` 1560007.  The
key of the single char -128 (the byte 0x80, of value 128, read as a signed char) has
the hashcode -128, below 0; in the table of 7 buckets its index `-128 % 7` is -2 and
`ht->store[-2]` is outside the array.  The key "kihem" (chars 107, 105, 104, 101, 109)
has the hashcode `BIG_PRIME`, which is not below `BIG_PRIME`. -/
theorem hashcode_out_of_range :
    hashcode BIG_PRIME_sample [-128] = -128 ∧
      slot_of (hashcode BIG_PRIME_sample [-128]) table7.size = some (-2) ∧
      store_get table7.store (-2) = none ∧
      htable_lookup BIG_PRIME_sample table7 [-128] = none ∧
      hashcode BIG_PRIME_sample [107, 105, 104, 101, 109] = BIG_PRIME_sample ∧
      ¬ (hashcode BIG_PRIME_sample [107, 105, 104, 101, 109] < BIG_PRIME_sample) := by
  decide

/-- The range of `hashcode` and the index, for `255 <= BIG_PRIME`, `256 * BIG_PRIME`
inside the `int` range and a key of chars between 0 and 255: the hashcode is between 0
and `BIG_PRIME`, both included, and for every bucket count `size >= 1` the index
`hashcode(key) % size` is in `[0, size)`. -/
theorem hashcode_index_range (BIG_PRIME : Int) (hB : 255 ≤ BIG_PRIME)
    (hB2 : 256 * BIG_PRIME < 2 ^ 31) (s : List Int) (hs : ∀ c ∈ s, 0 ≤ c ∧ c ≤ 255)
    (size : Int) (hsize : 1 ≤ size) :
    0 ≤ hashcode BIG_PRIME s ∧ hashcode BIG_PRIME s ≤ BIG_PRIME ∧
      0 ≤ Int.tmod (hashcode BIG_PRIME s) size ∧ Int.tmod (hashcode BIG_PRIME s) size < size := by
  obtain ⟨_, h0, h1, _⟩ := hashcode_spec BIG_PRIME hB hB2 s hs
  exact ⟨h0, h1, slot_in_range h0 hsize⟩

/-- The range of the index at a concrete input: the key "abc" and 7 buckets. -/
theorem hashcode_index_range_witness :
    0 ≤ hashcode BIG_PRIME_sample [97, 98, 99] ∧
      hashcode BIG_PRIME_sample [97, 98, 99] ≤ BIG_PRIME_sample ∧
      0 ≤ Int.tmod (hashcode BIG_PRIME_sample [97, 98, 99]) 7 ∧
      Int.tmod (hashcode BIG_PRIME_sample [97, 98, 99]) 7 < 7 :=
  hashcode_index_range BIG_PRIME_sample (by decide) (by decide) [97, 98, 99] (by decide) 7
    (by decide)

/-! ## Sizes along the inserts -/

/-- What a returning `htable_insert` does to the bucket count and to the flag: the flag
is kept, and the bucket count is kept or replaced by the least prime from twice the
old count on. -/
theorem insert_size_cases {BIG_PRIME : Int} {ht ht1 : htable} {done : List (List Int × Nat)}
    (hinv : table_inv BIG_PRIME ht done) {key : List Int} {val : Nat} {r : Int}
    (h : htable_insert BIG_PRIME ht key val = some (ht1, r)) :
    ht1.allow_resize = ht.allow_resize ∧
      (ht1.size = ht.size ∨ (1 ≤ ht.size ∧ least_prime_from (2 * ht.size) ht1.size)) := by
  cases hc : target_chain BIG_PRIME ht key with
  | none => rw [insert_undefined hc] at h; cases h
  | some chain =>
    obtain ⟨hdup, hfresh⟩ := inv_chain_cases hinv hc
    have h1 : 1 ≤ ht.size := inv_size_pos_of_target hinv.1 hc
    by_cases hk : key ∈ done.map Prod.fst
    · rw [insert_eq_dup hc (hdup hk)] at h
      simp only [Option.some.injEq, Prod.mk.injEq] at h
      obtain ⟨rfl, _⟩ := h
      exact ⟨rfl, Or.inl rfl⟩
    · rw [insert_eq_fresh hc (hfresh hk)] at h
      split at h
      · cases hr : htable_resize (append_node BIG_PRIME ht key val chain) with
        | none => rw [hr] at h; cases h
        | some ht2 =>
          rw [hr] at h
          simp only [Option.map_some', Option.some.injEq, Prod.mk.injEq] at h
          obtain ⟨rfl, _⟩ := h
          have h1a : 1 ≤ (append_node BIG_PRIME ht key val chain).size := h1
          have h2a : (append_node BIG_PRIME ht key val chain).size < 2 ^ 31 := hinv.1.1.2
          obtain ⟨hl, har, _⟩ := resize_size _ ht2 h1a h2a hr
          exact ⟨har, Or.inr ⟨h1, hl⟩⟩
      · simp only [Option.some.injEq, Prod.mk.injEq] at h
        obtain ⟨rfl, _⟩ := h
        exact ⟨rfl, Or.inl rfl⟩

/-- A prime bucket count stays prime along the inserts. -/
theorem inserts_size_prime {BIG_PRIME : Int} : ∀ (ops : List (List Int × Nat)) (ht : htable)
    (done : List (List Int × Nat)) (ht1 : htable) (done1 : List (List Int × Nat)),
    table_inv BIG_PRIME ht done → Nat.Prime ht.size.toNat →
    htable_inserts BIG_PRIME ht done ops = some (ht1, done1) →
    Nat.Prime ht1.size.toNat := by
  intro ops
  induction ops with
  | nil =>
    intro ht done ht1 done1 _ hp h
    simp only [htable_inserts, Option.some.injEq, Prod.mk.injEq] at h
    obtain ⟨rfl, _⟩ := h
    exact hp
  | cons kv rest ih =>
    intro ht done ht1 done1 hinv hp h
    unfold htable_inserts at h
    split at h
    · cases h
    · rename_i res hres
      obtain ⟨ht2, r⟩ := res
      have hinv2 := (insert_inv hinv hres).1
      refine ih ht2 _ ht1 done1 hinv2 ?_ h
      rcases (insert_size_cases hinv hres).2 with heq | ⟨_, hl⟩
      · show Nat.Prime ht2.size.toNat
        rw [heq]; exact hp
      · exact hl.1

/-- Prime size, for size hints from 1 on: after a returning `htable_init` with an `int`
size hint `sz >= 1` and every sequence of returning inserts, `htable_size` is a
prime. -/
theorem size_prime_from_one (BIG_PRIME : Int) (sz ar : Int) (hsz : 1 ≤ sz)
    (hsz2 : sz < 2 ^ 31) (ht0 : htable)
    (hinit : htable_init sz ar = some ht0) (ops : List (List Int × Nat)) (ht : htable)
    (done : List (List Int × Nat))
    (hrun : htable_inserts BIG_PRIME ht0 [] ops = some (ht, done)) :
    Nat.Prime (htable_size ht).toNat := by
  obtain ⟨hg, h0, _, _⟩ := init_eq hinit
  have hno : sz + 1 < 2 ^ 31 := by
    by_contra hge
    rw [wrap_int_overflow (show 2 ^ 31 ≤ sz + 1 by omega) (by omega),
      get_prime_small _ (by omega)] at hg
    simp only [Option.some.injEq] at hg
    omega
  rw [wrap_int_eq (by omega) hno] at hg
  obtain ⟨p, hp, hprime, _, _⟩ := get_prime_spec (sz + 1) (by omega)
  have hsize : ht0.size = p := by
    have := hg
    rw [hp] at this
    exact (Option.some.inj this).symm
  exact inserts_size_prime ops ht0 [] ht done (init_inv BIG_PRIME hinit)
    (by rw [hsize]; exact hprime) hrun

set_option maxRecDepth 100000 in
/-- The prime size at a concrete input: size hint 5, the eleven inserts that end in the
table `table17`. -/
theorem size_prime_from_one_witness : Nat.Prime (htable_size table17).toNat :=
  size_prime_from_one BIG_PRIME_sample 5 1 (by decide) (by decide) table7 (by decide)
    (pairs10 ++ [([77], 11)]) table17 (([77], 11) :: pairs10.reverse) (by decide)

/-! ## Prime size (C11) -/

/-- C11, evaluation at the failing input: `htable_init(ht, 0, 1)` gives the table
`table1` of 1 bucket, and 1 is not a prime; the insert of a key returns 0 and leaves 1
bucket.  The size hint -1 gives 0 buckets. -/
theorem init_size_not_prime :
    htable_init 0 1 = some table1 ∧ htable_size table1 = 1 ∧
      ¬ Nat.Prime (htable_size table1).toNat ∧
      (htable_insert BIG_PRIME_sample table1 [97] 5).map (fun res => htable_size res.1)
        = some 1 ∧
      (htable_init (-1) 1).map htable_size = some 0 := by
  refine ⟨by decide, by decide, ?_, by decide, by decide⟩
  show ¬ Nat.Prime 1
  norm_num

/-! ## Forced growth (C16) -/

theorem flatten_length_le (l : List (List node)) (h : ∀ c ∈ l, (c.length : Int) ≤ MAX_COLLISION) :
    (l.flatten.length : Int) ≤ MAX_COLLISION * l.length := by
  induction l with
  | nil => simp
  | cons c rest ih =>
    have hc := h c (List.mem_cons_self _ _)
    have hr := ih (fun d hd => h d (List.mem_cons_of_mem _ hd))
    simp only [List.flatten_cons, List.length_append, List.length_cons, Nat.cast_add,
      Nat.cast_one]
    unfold MAX_COLLISION at hc hr ⊢
    omega

/-- With resizing allowed, an insert into a table whose chains are not longer than
`MAX_COLLISION` either keeps the bucket count and that bound, or makes the bucket count
larger. -/
theorem insert_short_or_grown {BIG_PRIME : Int} {ht ht1 : htable}
    {done : List (List Int × Nat)} (hinv : table_inv BIG_PRIME ht done)
    (har : ht.allow_resize ≠ 0) (hshort : chains_short ht) {key : List Int} {val : Nat}
    {r : Int} (h : htable_insert BIG_PRIME ht key val = some (ht1, r)) :
    (ht1.size = ht.size ∧ chains_short ht1) ∨ ht.size < ht1.size := by
  cases hc : target_chain BIG_PRIME ht key with
  | none => rw [insert_undefined hc] at h; cases h
  | some chain =>
    obtain ⟨hdup, hfresh⟩ := inv_chain_cases hinv hc
    have h1 : 1 ≤ ht.size := inv_size_pos_of_target hinv.1 hc
    obtain ⟨_, _, hget⟩ := target_chain_some hc
    by_cases hk : key ∈ done.map Prod.fst
    · rw [insert_eq_dup hc (hdup hk)] at h
      simp only [Option.some.injEq, Prod.mk.injEq] at h
      obtain ⟨rfl, _⟩ := h
      exact Or.inl ⟨rfl, hshort⟩
    · rw [insert_eq_fresh hc (hfresh hk)] at h
      split at h
      · cases hr : htable_resize (append_node BIG_PRIME ht key val chain) with
        | none => rw [hr] at h; cases h
        | some ht2 =>
          rw [hr] at h
          simp only [Option.map_some', Option.some.injEq, Prod.mk.injEq] at h
          obtain ⟨rfl, _⟩ := h
          have h1a : 1 ≤ (append_node BIG_PRIME ht key val chain).size := h1
          have h2a : (append_node BIG_PRIME ht key val chain).size < 2 ^ 31 := hinv.1.1.2
          have := (resize_size _ ht2 h1a h2a hr).1.2.1
          change 2 * ht.size ≤ ht2.size at this
          right; omega
      · rename_i hcond
        simp only [Option.some.injEq, Prod.mk.injEq] at h
        obtain ⟨rfl, _⟩ := h
        have hlen : (chain.length : Int) < MAX_COLLISION := by
          by_contra hge
          exact hcond ⟨har, by omega⟩
        refine Or.inl ⟨rfl, ?_⟩
        intro c hcmem
        change c ∈ ht.store.set _ _ at hcmem
        rcases List.mem_or_eq_of_mem_set hcmem with hm | heq
        · exact hshort c hm
        · rw [heq]
          simp only [List.length_append, List.length_singleton, Nat.cast_add, Nat.cast_one]
          omega

/-- A run of inserts of new, pairwise distinct keys that all return, from a table that
satisfies the invariant: every insert has returned 0, the invariant holds at the end for
all the pairs, and, with resizing allowed, the table at the end has more than `s`
buckets or still `s` buckets and no chain longer than `MAX_COLLISION`, when the table at
the start has. -/
theorem inserts_fresh_run {BIG_PRIME : Int} (s : Int) : ∀ (ops : List (List Int × Nat))
    (ht : htable) (done : List (List Int × Nat)) (ht1 : htable)
    (done1 : List (List Int × Nat)),
    table_inv BIG_PRIME ht done → ht.allow_resize ≠ 0 →
    (s < ht.size ∨ (ht.size = s ∧ chains_short ht)) →
    (ops.map Prod.fst).Nodup → (∀ kv ∈ ops, kv.1 ∉ done.map Prod.fst) →
    htable_inserts BIG_PRIME ht done ops = some (ht1, done1) →
    done1 = ops.reverse ++ done ∧ table_inv BIG_PRIME ht1 done1 ∧
      (s < ht1.size ∨ (ht1.size = s ∧ chains_short ht1)) := by
  intro ops
  induction ops with
  | nil =>
    intro ht done ht1 done1 hinv _ hJ _ _ h
    simp only [htable_inserts, Option.some.injEq, Prod.mk.injEq] at h
    obtain ⟨rfl, rfl⟩ := h
    exact ⟨by simp, hinv, hJ⟩
  | cons kv rest ih =>
    intro ht done ht1 done1 hinv har hJ hnd hnew h
    obtain ⟨k, v⟩ := kv
    simp only [List.map_cons, List.nodup_cons] at hnd
    have hk : k ∉ done.map Prod.fst := hnew (k, v) (List.mem_cons_self _ _)
    unfold htable_inserts at h
    cases hins : htable_insert BIG_PRIME ht k v with
    | none => simp only [hins] at h; cases h
    | some res =>
      obtain ⟨ht2, r⟩ := res
      simp only [hins] at h
      obtain ⟨hinv2, hcase⟩ := insert_inv hinv hins
      have hr0 : r = 0 := by
        rcases hcase with ⟨hmem, _, _⟩ | ⟨_, h0⟩
        · exact absurd hmem hk
        · exact h0
      subst hr0
      simp only [if_true] at h hinv2
      have hsc := insert_size_cases hinv hins
      have har2 : ht2.allow_resize ≠ 0 := by rw [hsc.1]; exact har
      have hle : ht.size ≤ ht2.size := by
        rcases hsc.2 with heq | ⟨h1, hl⟩
        · omega
        · have := hl.2.1; omega
      have hJ2 : s < ht2.size ∨ (ht2.size = s ∧ chains_short ht2) := by
        rcases hJ with hgt | ⟨heq, hshort⟩
        · left; omega
        · rcases insert_short_or_grown hinv har hshort hins with ⟨h1, h2⟩ | hg
          · right; exact ⟨by omega, h2⟩
          · left; omega
      have hnew2 : ∀ kv ∈ rest, kv.1 ∉ ((k, v) :: done).map Prod.fst := by
        intro kv hkv hmem
        simp only [List.map_cons, List.mem_cons] at hmem
        rcases hmem with heq | hmem
        · exact hnd.1 (heq ▸ List.mem_map.2 ⟨kv, hkv, rfl⟩)
        · exact hnew kv (List.mem_cons_of_mem _ hkv) hmem
      obtain ⟨hd, hinv3, hJ3⟩ := ih ht2 ((k, v) :: done) ht1 done1 hinv2 har2 hJ2 hnd.2 hnew2 h
      exact ⟨by rw [hd]; simp, hinv3, hJ3⟩

/-- Forced growth, for runs that return: after `htable_init` with `allow_resize`
non-zero, with initial bucket count `s`, when the inserts of `N > 10*s` pairwise
distinct keys all return, they have all returned 0, the bucket count after them is
larger than `s`, and the lookup of every one of the keys returns its value.  (On the
data path an insert of a new key returns when the hashcodes are non-negative and the
table has fewer than `2 ^ 30` buckets: `insert_fresh_total`.) -/
theorem forced_growth (BIG_PRIME : Int) (sz ar : Int) (har : ar ≠ 0)
    (ht0 : htable) (hinit : htable_init sz ar = some ht0) (ops : List (List Int × Nat))
    (hnd : (ops.map Prod.fst).Nodup)
    (hN : MAX_COLLISION * htable_size ht0 < (ops.length : Int))
    (ht : htable) (done : List (List Int × Nat))
    (hrun : htable_inserts BIG_PRIME ht0 [] ops = some (ht, done)) :
    done = ops.reverse ∧ htable_size ht0 < htable_size ht ∧
      ∀ kv ∈ ops, htable_lookup BIG_PRIME ht kv.1 = some kv.2 := by
  obtain ⟨hgp, h0, hstore, har0⟩ := init_eq hinit
  have hinv0 := init_inv BIG_PRIME hinit
  have hshort : chains_short ht0 := by
    intro c hc
    rw [hstore] at hc
    rw [List.eq_of_mem_replicate hc]
    decide
  obtain ⟨hd, hinv, hJ⟩ := inserts_fresh_run ht0.size ops ht0 [] ht done hinv0
    (by rw [har0]; exact har) (Or.inr ⟨rfl, hshort⟩) hnd (by simp) hrun
  simp only [List.append_nil] at hd
  subst hd
  refine ⟨rfl, ?_, ?_⟩
  · rcases hJ with hgt | ⟨heq, hsh⟩
    · exact hgt
    · exfalso
      have hlen := flatten_length_le ht.store hsh
      have hperm := hinv.2.2.1.length_eq
      unfold entries at hperm
      rw [hperm] at hlen
      simp only [List.length_map, List.length_reverse] at hlen
      have hw := hinv.1
      rw [hw.2, Int.toNat_of_nonneg hw.1.1, heq] at hlen
      unfold htable_size at hN
      omega
  · intro kv hkv
    obtain ⟨k, v⟩ := kv
    exact lookup_of_mem hinv (List.mem_reverse.2 hkv)

set_option maxRecDepth 100000 in
/-- The forced growth at a concrete input: size hint 0 (one bucket) and the eleven keys
of `pairs11`, whose inserts return on the data path and give the 2 buckets of
`table2`. -/
theorem forced_growth_witness :
    htable_inserts BIG_PRIME_sample table1 [] pairs11 = some (table2, pairs11.reverse) ∧
      (pairs11.reverse = pairs11.reverse ∧ htable_size table1 < htable_size table2 ∧
        ∀ kv ∈ pairs11, htable_lookup BIG_PRIME_sample table2 kv.1 = some kv.2) :=
  ⟨by decide,
    forced_growth BIG_PRIME_sample 0 1 (by decide) table1 (by decide) pairs11
      (by decide) (by decide) table2 pairs11.reverse (by decide)⟩

set_option maxRecDepth 100000 in
/-- C16, evaluation at the failing input: `htable_init(ht, 0, 1)` gives 1 bucket; the
eleven keys of the single chars -1, 1, 2, ..., 10 are pairwise distinct and eleven is
more than ten times 1; the first ten inserts return 0 and leave one bucket with ten
nodes; the insert of the eleventh key calls `htable_resize`, where the new size is 2
and the new index of the node of hashcode -1 is `-1 % 2`, which is -1, outside the new
array: the insert has no defined result, and neither has the run of the eleven. -/
theorem forced_growth_negative_char_undefined :
    htable_init 0 1 = some table1 ∧
      ((pairs_ff ++ [([10], 11)]).map Prod.fst).Nodup ∧
      MAX_COLLISION * htable_size table1 < ((pairs_ff ++ [([10], 11)]).length : Int) ∧
      htable_inserts BIG_PRIME_sample table1 [] pairs_ff
        = some (table1_ff, pairs_ff.reverse) ∧
      get_prime (2 * table1_ff.size) = some 2 ∧
      slot_of (char_node (-1) 1).hashcode 2 = some (-1) ∧
      htable_insert BIG_PRIME_sample table1_ff [10] 11 = none ∧
      htable_inserts BIG_PRIME_sample table1 [] (pairs_ff ++ [([10], 11)]) = none := by
  decide

/-! ## Writer preference (C17) -/

/-- While a writer is waiting, a step of the lock changes the count of active readers
only by a release. -/
theorem rwl_step_waiting {l l1 : rwl} {e : rwl_event} (hw : 0 < l.askwrite)
    (h : rwl_step l e = some l1) :
    l1.readers + (if e = rwl_event.runlock then 1 else 0) = l.readers := by
  cases e <;> simp only [rwl_step] at h <;> split at h <;>
    first
    | (cases h; done)
    | (exfalso; omega)
    | (cases h; simp; done)
    | (cases h; simp; omega)

/-- C17: in the lock as the specification describes it, while a writer is waiting
(`askwrite > 0`): a call of `rwl_rlock` does not acquire but queues (the count of
blocked readers grows by one, the active readers stay) and no blocked reader can
proceed; along every run of steps before each of which a writer is waiting, the active
readers only go down, by one at each `rwl_runlock`, so no reader overtakes the writer
and the readers that were active are gone after as many releases; and in every state
with a waiting writer, no active reader and no active writer, the waiting writer
acquires the lock.  A writer that calls `rwl_wlock` while readers are active becomes
such a waiting writer. -/
theorem writer_preference (l : rwl) (hw : 0 < l.askwrite) :
    rwl_step l rwl_event.rlock_call = some { l with askread := l.askread + 1 } ∧
      rwl_step l rwl_event.rlock_wake = none ∧
      (∀ (es : List rwl_event) (l1 : rwl), WaitingRun l es l1 →
        l1.readers + es.count rwl_event.runlock = l.readers) ∧
      (l.readers = 0 → l.writer = 0 →
        rwl_step l rwl_event.wlock_wake
          = some { l with askwrite := l.askwrite - 1, writer := 1 }) ∧
      (∀ l0 : rwl, 0 < l0.readers →
        rwl_step l0 rwl_event.wlock_call = some { l0 with askwrite := l0.askwrite + 1 }) := by
  have hne : ¬ (l.askwrite = 0) := by omega
  refine ⟨?_, ?_, ?_, ?_, ?_⟩
  · simp only [rwl_step]
    rw [if_neg (fun hc => hne hc.2)]
  · simp only [rwl_step]
    rw [if_neg (fun hc => hne hc.2.2)]
  · intro es l1 hrun
    clear hw hne
    induction hrun with
    | done l => simp
    | step l l1 l2 e es hw hstep _ ih =>
      have := rwl_step_waiting hw hstep
      rw [List.count_cons]
      by_cases he : e = rwl_event.runlock
      · subst he
        simp only [if_true] at this
        simp only [beq_self_eq_true, if_true]
        omega
      · simp only [he, if_false] at this
        have hbeq : (e == rwl_event.runlock) = false := by simpa using he
        simp only [hbeq]
        simp
        omega
  · intro hr hwr
    simp only [rwl_step]
    rw [if_pos ⟨hw, hr, hwr⟩]
  · intro l0 hr
    simp only [rwl_step]
    rw [if_neg (fun hc => by omega)]

/-- The writer preference at a concrete input: two active readers and one waiting
writer; a new reader queues, the two readers release, and the writer acquires. -/
theorem writer_preference_witness :
    rwl_step { readers := 2, writer := 0, askread := 0, askwrite := 1 } rwl_event.rlock_call
        = some { readers := 2, writer := 0, askread := 1, askwrite := 1 } ∧
      rwl_step { readers := 2, writer := 0, askread := 1, askwrite := 1 } rwl_event.runlock
        = some { readers := 1, writer := 0, askread := 1, askwrite := 1 } ∧
      rwl_step { readers := 1, writer := 0, askread := 1, askwrite := 1 } rwl_event.runlock
        = some { readers := 0, writer := 0, askread := 1, askwrite := 1 } ∧
      rwl_step { readers := 0, writer := 0, askread := 1, askwrite := 1 } rwl_event.rlock_wake
        = none ∧
      rwl_step { readers := 0, writer := 0, askread := 1, askwrite := 1 } rwl_event.wlock_wake
        = some { readers := 0, writer := 1, askread := 1, askwrite := 0 } :=
  ⟨(writer_preference { readers := 2, writer := 0, askread := 0, askwrite := 1 }
      (by decide)).1,
    by decide, by decide,
    (writer_preference { readers := 0, writer := 0, askread := 1, askwrite := 1 }
      (by decide)).2.1,
    by decide⟩

end Htable
